import Mathlib

/-!
# Verification of the `Praktyki` marketing-idea service (src/chatgpt.py)

Python strings are modelled as `List Char`.  The JSON parsing done by the
source through Python's `json.loads` is modelled by a fuel-based
recursive-descent scanner (`parseCore`) that follows CPython's `json`
decoder: whitespace is `' '`, `'\t'`, `'\n'`, `'\r'`; numbers follow the
regex `-?(0|[1-9][0-9]*)(\.[0-9]+)?([eE][+-]?[0-9]+)?`; the constants
`NaN`, `Infinity`, `-Infinity` are accepted; in strict mode a literal
control character (code point < 0x20) inside a string is rejected, in
lenient mode (`strict=False`) it is kept.  A `\uXXXX` escape that is a
lone surrogate is rejected here (a Lean `Char` cannot carry a lone
surrogate); CPython would keep it.  Numbers are kept as their source
token, which is faithful up to the numeric value's spelling.
-/

/-- Python `str.strip` whitespace (the ASCII part used by the source). -/
def pyWs (c : Char) : Bool :=
  c = ' ' || c = '\t' || c = '\n' || c = '\r' || c = '\x0b' || c = '\x0c'

/-- JSON whitespace as in CPython's `json` module: space, tab, LF, CR. -/
def jsonWs (c : Char) : Bool :=
  c = ' ' || c = '\t' || c = '\n' || c = '\r'

/-- Python `str.strip`: drop leading and trailing whitespace. -/
def pyStrip (s : List Char) : List Char :=
  ((s.dropWhile pyWs).reverse.dropWhile pyWs).reverse

/-- Parsed JSON values as produced by Python's `json.loads`.
`num` keeps the matched numeric token; `nan`, `inf`, `neginf` are the
non-standard constants CPython accepts by default. -/
inductive Json where
  | null : Json
  | bool : Bool → Json
  | str : List Char → Json
  | num : List Char → Json
  | nan : Json
  | inf : Json
  | neginf : Json
  | arr : List Json → Json
  | obj : List (List Char × Json) → Json

/-- Hex digit value, `none` for a non-hex character. -/
def hexVal (c : Char) : Option Nat :=
  if '0' ≤ c ∧ c ≤ '9' then some (c.toNat - '0'.toNat)
  else if 'a' ≤ c ∧ c ≤ 'f' then some (c.toNat - 'a'.toNat + 10)
  else if 'A' ≤ c ∧ c ≤ 'F' then some (c.toNat - 'A'.toNat + 10)
  else none

/-- Value of four hex digits, `none` if any is not hex. -/
def hex4 (a b c d : Char) : Option Nat :=
  match hexVal a, hexVal b, hexVal c, hexVal d with
  | some x, some y, some z, some w => some (((x * 16 + y) * 16 + z) * 16 + w)
  | _, _, _, _ => none

/-- Body of a JSON string after the opening quote, as CPython's
`py_scanstring`: returns the decoded characters and the remaining input
after the closing quote.  `st` is the `strict` flag: when true a literal
control character (< 0x20) aborts the parse; when false it is kept. -/
def parseStringBody (st : Bool) : List Char → Option (List Char × List Char)
  | [] => none
  | '"' :: rest => some ([], rest)
  | '\\' :: rest =>
    match rest with
    | '"' :: r => (parseStringBody st r).map (fun p => ('"' :: p.1, p.2))
    | '\\' :: r => (parseStringBody st r).map (fun p => ('\\' :: p.1, p.2))
    | '/' :: r => (parseStringBody st r).map (fun p => ('/' :: p.1, p.2))
    | 'b' :: r => (parseStringBody st r).map (fun p => ('\x08' :: p.1, p.2))
    | 'f' :: r => (parseStringBody st r).map (fun p => ('\x0c' :: p.1, p.2))
    | 'n' :: r => (parseStringBody st r).map (fun p => ('\n' :: p.1, p.2))
    | 'r' :: r => (parseStringBody st r).map (fun p => ('\r' :: p.1, p.2))
    | 't' :: r => (parseStringBody st r).map (fun p => ('\t' :: p.1, p.2))
    | 'u' :: h1 :: h2 :: h3 :: h4 :: r =>
      match hex4 h1 h2 h3 h4 with
      | none => none
      | some n =>
        if 0xD800 ≤ n ∧ n ≤ 0xDBFF then
          match r with
          | '\\' :: 'u' :: g1 :: g2 :: g3 :: g4 :: r2 =>
            match hex4 g1 g2 g3 g4 with
            | none => none
            | some m =>
              if 0xDC00 ≤ m ∧ m ≤ 0xDFFF then
                (parseStringBody st r2).map (fun p =>
                  (Char.ofNat (0x10000 + (n - 0xD800) * 0x400 + (m - 0xDC00)) :: p.1, p.2))
              else none
          | _ => none
        else if 0xDC00 ≤ n ∧ n ≤ 0xDFFF then none
        else (parseStringBody st r).map (fun p => (Char.ofNat n :: p.1, p.2))
    | _ => none
  | c :: rest =>
    if c.toNat < 0x20 ∧ st then none
    else (parseStringBody st rest).map (fun p => (c :: p.1, p.2))

/-- The digits matched by `[0-9]`. -/
def isDig (c : Char) : Bool := '0' ≤ c && c ≤ '9'

/-- Match CPython's `NUMBER_RE` at the head of the input:
`-?(0|[1-9][0-9]*)(\.[0-9]+)?([eE][+-]?[0-9]+)?`.
Returns the matched token and the rest; `none` when the regex does not
match at position 0. -/
def matchNumber (s : List Char) : Option (List Char × List Char) :=
  let signed : List Char × List Char :=
    if s.head? = some '-' then (['-'], s.tail) else ([], s)
  let sign := signed.1
  match signed.2 with
  | [] => none
  | c :: r =>
    if c = '0' then some (matchFrac (sign ++ ['0']) r)
    else if isDig c then
      some (matchFrac (sign ++ c :: r.takeWhile isDig) (r.dropWhile isDig))
    else none
where
  /-- Optional fraction part `(\.[0-9]+)?` then exponent. -/
  matchFrac (tok : List Char) (s : List Char) : List Char × List Char :=
    if s.head? = some '.' then
      match s.tail.takeWhile isDig with
      | [] => matchExp tok s
      | ds => matchExp (tok ++ '.' :: ds) (s.tail.dropWhile isDig)
    else matchExp tok s
  /-- Optional exponent part `([eE][+-]?[0-9]+)?`. -/
  matchExp (tok : List Char) (s : List Char) : List Char × List Char :=
    match s with
    | e :: r =>
      if e = 'e' ∨ e = 'E' then
        let signedE : List Char × List Char :=
          if r.head? = some '+' then (['+'], r.tail)
          else if r.head? = some '-' then (['-'], r.tail)
          else ([], r)
        match signedE.2.takeWhile isDig with
        | [] => (tok, s)
        | ds => (tok ++ e :: signedE.1 ++ ds, signedE.2.dropWhile isDig)
      else (tok, s)
    | [] => (tok, s)

/-- Number or one of the constants `NaN`, `Infinity`, `-Infinity`,
tried in the order CPython's scanner tries them (regex first). -/
def parseNumConst (s : List Char) : Option (Json × List Char) :=
  match matchNumber s with
  | some (tok, r) => some (Json.num tok, r)
  | none =>
    match s with
    | 'N' :: 'a' :: 'N' :: r => some (Json.nan, r)
    | 'I' :: 'n' :: 'f' :: 'i' :: 'n' :: 'i' :: 't' :: 'y' :: r => some (Json.inf, r)
    | '-' :: 'I' :: 'n' :: 'f' :: 'i' :: 'n' :: 'i' :: 't' :: 'y' :: r => some (Json.neginf, r)
    | _ => none

/-- Insert a key/value pair as CPython's `dict(pairs)` does: a repeated
key keeps its first position but takes the last value. -/
def objUpdate (acc : List (List Char × Json)) (k : List Char) (v : Json) :
    List (List Char × Json) :=
  if acc.any (fun p => p.1 = k) then
    acc.map (fun p => if p.1 = k then (p.1, v) else p)
  else acc ++ [(k, v)]

/-- Parser mode: a top-level value, the element loop of an array (input
positioned at the next element), or the member loop of an object (input
positioned at the opening quote of the next key). -/
inductive PMode where
  | value : PMode
  | items : List Json → PMode
  | members : List (List Char × Json) → PMode

/-- CPython's `scan_once` with the array and object loops of
`JSONArray` / `JSONObject`, fuelled so that it is structural.  The fuel
decreases at every step; `jsonFuel` below always provides enough. -/
def parseCore : Nat → Bool → PMode → List Char → Option (Json × List Char)
  | 0, _, _, _ => none
  | f + 1, st, PMode.value, s =>
    match s with
    | '"' :: rest => (parseStringBody st rest).map (fun p => (Json.str p.1, p.2))
    | '{' :: rest =>
      match rest.dropWhile jsonWs with
      | '}' :: r => some (Json.obj [], r)
      | s2 => parseCore f st (PMode.members []) s2
    | '[' :: rest =>
      match rest.dropWhile jsonWs with
      | ']' :: r => some (Json.arr [], r)
      | s2 => parseCore f st (PMode.items []) s2
    | 'n' :: 'u' :: 'l' :: 'l' :: rest => some (Json.null, rest)
    | 't' :: 'r' :: 'u' :: 'e' :: rest => some (Json.bool true, rest)
    | 'f' :: 'a' :: 'l' :: 's' :: 'e' :: rest => some (Json.bool false, rest)
    | _ => parseNumConst s
  | f + 1, st, PMode.items acc, s =>
    match parseCore f st PMode.value s with
    | none => none
    | some (v, r) =>
      match r.dropWhile jsonWs with
      | ',' :: r2 => parseCore f st (PMode.items (acc ++ [v])) (r2.dropWhile jsonWs)
      | ']' :: r2 => some (Json.arr (acc ++ [v]), r2)
      | _ => none
  | f + 1, st, PMode.members acc, s =>
    match s with
    | '"' :: rest =>
      match parseStringBody st rest with
      | none => none
      | some (k, r1) =>
        match r1.dropWhile jsonWs with
        | ':' :: r2 =>
          match parseCore f st PMode.value (r2.dropWhile jsonWs) with
          | none => none
          | some (v, r3) =>
            match r3.dropWhile jsonWs with
            | '}' :: r4 => some (Json.obj (objUpdate acc k v), r4)
            | ',' :: r4 => parseCore f st (PMode.members (objUpdate acc k v)) (r4.dropWhile jsonWs)
            | _ => none
        | _ => none
    | _ => none

/-- Fuel that always suffices for `parseCore` on input `s`. -/
def jsonFuel (s : List Char) : Nat := 2 * s.length + 2

/-- Python `json.loads(s)` (with `strict=st`): skip leading whitespace,
scan one value, require only whitespace after it.  `Except Unit` models
the `json.JSONDecodeError` raised on failure. -/
def jsonLoads (st : Bool) (s : List Char) : Except Unit Json :=
  match parseCore (jsonFuel s) st PMode.value (s.dropWhile jsonWs) with
  | some (v, r) => if r.dropWhile jsonWs = [] then Except.ok v else Except.error ()
  | none => Except.error ()

/-! ## The source's text utilities (`src/chatgpt.py`) -/

/-- The triple-backtick marker. -/
def fenceChars : List Char := ['`', '`', '`']

/-- Python `s.rfind(pat)`: the largest index at which `pat` occurs in
`s`, `none` when it does not occur (Python's `-1`). -/
def pyRFind (pat s : List Char) : Option Nat :=
  ((List.range (s.length + 1)).filter (fun i => pat.isPrefixOf (s.drop i))).getLast?

/-- `_strip_code_fence` (src/chatgpt.py lines 159-184): strip the text;
if it does not start with \x60\x60\x60 return the stripped text; otherwise drop
the first line, cut from the last \x60\x60\x60 occurrence on (if any), and strip
again. -/
def strip_code_fence (text : List Char) : List Char :=
  if text = [] then text
  else
    let raw := pyStrip text
    if ¬ fenceChars.isPrefixOf raw then raw
    else
      match raw.findIdx? (fun c => c = '\n') with
      | none => raw
      | some newlineIdx =>
        let trimmed := raw.drop (newlineIdx + 1)
        match pyRFind fenceChars trimmed with
        | some closingIdx => pyStrip (trimmed.take closingIdx)
        | none => pyStrip trimmed

/-- Python conflates JSON `null` with the absence of a value: both are
the object `None`.  `nullToNone` maps a parsed value to the `Option`
that models the Python object returned by `json.loads`. -/
def nullToNone : Json → Option Json
  | Json.null => none
  | v => some v

/-- The candidate loop of `_extract_json` (lines 147-155), counted down:
counter `k` stands for the Python index `j = start + k`, so the first
call uses `k = text.length - start` (`j = len(text)`) and the loop stops
at `k = 0` (`j = start`).  Each candidate is tried with a strict
`json.loads` and, if that raises, a lenient one (`strict=False`); both
failures fall through to the next candidate, mirroring the nested
`try`/`except` blocks.  The `Except` result models exceptions escaping
the function: by construction every branch is `Except.ok`. -/
def extract_loop (text : List Char) (start : Nat) : Nat → Except Unit (Option Json)
  | 0 => Except.ok none
  | k + 1 =>
    let candidate := (text.drop start).take (k + 1)
    match jsonLoads true candidate with
    | Except.ok v => Except.ok (nullToNone v)
    | Except.error _ =>
      match jsonLoads false candidate with
      | Except.ok v => Except.ok (nullToNone v)
      | Except.error _ => extract_loop text start k

/-- `_extract_json` (src/chatgpt.py lines 137-156) with exceptions kept
visible: empty text returns `None`; otherwise the first `[` or `{`
starts the candidate scan. -/
def extract_json_run (text : List Char) : Except Unit (Option Json) :=
  if text = [] then Except.ok none
  else
    match text.findIdx? (fun c => c = '[' || c = '{') with
    | none => Except.ok none
    | some start => extract_loop text start (text.length - start)

/-- `_extract_json` as its callers see it: a Python value or `None`. -/
def extract_json (text : List Char) : Option Json :=
  match extract_json_run text with
  | Except.ok r => r
  | Except.error _ => none

/-- One candidate attempt as the claim words it: a strict JSON parse,
then a lenient parse tolerating control characters. -/
def tryParseCandidate (cand : List Char) : Option Json :=
  match jsonLoads true cand with
  | Except.ok v => some v
  | Except.error _ =>
    match jsonLoads false cand with
    | Except.ok v => some v
    | Except.error _ => none

/-- The extraction routine as claim C1 describes it: find the first
`[` or `{` (index `start`); fail if there is none; otherwise try the
candidates `text[start:j]` for `j` from `text.length` down to
`start + 1`, longest first, and return the first that parses. -/
def extractSpec (text : List Char) : Option Json :=
  match text.findIdx? (fun c => c = '[' || c = '{') with
  | none => none
  | some start =>
    ((List.range (text.length - start)).map (fun i => text.length - i)).findSome?
      (fun j => tryParseCandidate ((text.drop start).take (j - start)))

/-- The `ValueError` message raised at src/chatgpt.py line 209, carrying
the first 300 characters of the offending (fence-stripped) text. -/
def parseErrMsg (text : List Char) : List Char :=
  "Anthropic zwrócił nieparsowalny tekst: ".data ++ text.take 300

/-- The response-normalization block of `generate_ideas`
(src/chatgpt.py lines 198-209): strip an optional code fence, try a
strict `json.loads`, on `JSONDecodeError` fall back to `_extract_json`,
and raise `ValueError` (the spec's `ParseError`) when neither yields a
non-`None` value. -/
def normalizeResp (raw : List Char) : Except (List Char) Json :=
  let text := strip_code_fence raw
  match jsonLoads true text with
  | Except.ok parsed =>
    match nullToNone parsed with
    | some v => Except.ok v
    | none => Except.error (parseErrMsg text)
  | Except.error _ =>
    match extract_json text with
    | some v => Except.ok v
    | none => Except.error (parseErrMsg text)

/-- `"\x60\x60\x60json\n" ++ B ++ "\n\x60\x60\x60"`: the fenced wrapping of claim C4. -/
def fenceWrap (B : List Char) : List Char :=
  "```json\n".data ++ B ++ "\n```".data

/-! ## Prompt builder, holiday lookup, idea generation, HTTP handlers -/

/-- The fixed prompt template around the holiday text
(src/chatgpt.py lines 117-134), split at the three interpolation
points of the f-string. -/
def promptSeg1 : List Char := "\nJesteś ekspertem od marketingu.\nDziś jest ".data

def promptSeg2 : List Char := ".\nBranża: ".data

def promptSeg3 : List Char := ".\nŚwięta dzisiaj: ".data

def promptSeg4 : List Char :=
  (".\n\nPodaj 2-3 pomysły na kampanię marketingową w dokładnym formacie JSON, np.:\n\n" ++
   "[\n  \x7b\n    \"tytuł\": \"Przykładowy tytuł\",\n    \"opis\": \"Krótki opis kampanii.\"\n  \x7d\n]\n\n" ++
   "WAŻNE: Zwróć TYLKO czysty JSON bez żadnych komentarzy, wyjaśnień ani znaczników markdown (```json). \n" ++
   "Odpowiedź musi zaczynać się od [ i kończyć się na ].\n").data

/-- `build_prompt` (src/chatgpt.py lines 115-135): join the holiday
names with `", "`, or substitute the literal `"brak"` (Polish for
"none") when the list is empty, and interpolate into the template. -/
def build_prompt (industry date : List Char) (holidays : List (List Char)) : List Char :=
  let holidaysText := if holidays = [] then "brak".data else List.intercalate ", ".data holidays
  promptSeg1 ++ date ++ promptSeg2 ++ industry ++ promptSeg3 ++ holidaysText ++ promptSeg4

/-- Python truthiness of a parsed JSON value (`bool(x)`): `None`,
`False`, numeric zero, and empty strings/lists/dicts are falsy. -/
def pyTruthy : Json → Bool
  | Json.null => false
  | Json.bool b => b
  | Json.str s => ¬ s.isEmpty
  | Json.num tok =>
    (tok.takeWhile (fun c => ¬ (c = 'e' ∨ c = 'E'))).any (fun c => isDig c && c ≠ '0')
  | Json.nan => true
  | Json.inf => true
  | Json.neginf => true
  | Json.arr l => ¬ l.isEmpty
  | Json.obj l => ¬ l.isEmpty

/-- `h.get(k)`: the value under key `k`, or Python `None` (modelled as
`Json.null`, which is the same object) when absent. -/
def dictGet (fields : List (List Char × Json)) (k : List Char) : Json :=
  match fields.find? (fun p => p.1 = k) with
  | some p => p.2
  | none => Json.null

/-- Python `a or b`: `a` when truthy, else `b`. -/
def pyOr (a b : Json) : Json := if pyTruthy a then a else b

/-- `h.get('date') == date`: a Python `==` between a JSON value and the
requested date string; only an equal string compares `True`. -/
def dateMatches (h : List (List Char × Json)) (date : List Char) : Bool :=
  match dictGet h "date".data with
  | Json.str s => s = date
  | _ => false

/-- Is the parsed value a JSON object (a Python dict)? -/
def isObjJson : Json → Bool
  | Json.obj _ => true
  | _ => false

/-- Fields of an object, junk on anything else (used only under an
`isObjJson` guard). -/
def objFields : Json → List (List Char × Json)
  | Json.obj l => l
  | _ => []

/-- What the holiday HTTP call can deliver: a raised network exception,
or a response with an HTTP status and the outcome of `.json()` (which
itself can raise on an unparseable body). -/
def HolidayOutcome : Type := Except Unit (Nat × Except Unit Json)

/-- The body of `get_holidays` (src/chatgpt.py lines 104-113) before
its `except` clause, with every raise visible: the request itself,
`raise_for_status` (any status ≥ 400 raises), `.json()`, and the list
comprehension `[h.get('localName') or h.get('name') for h in holidays
if h.get('date') == date]`, which raises as soon as an element is not a
dict.  Iterating a non-list raises too, except that an empty dict or
empty string iterates zero times. -/
def get_holidays_run (date : List Char) (http : HolidayOutcome) : Except Unit (List Json) :=
  match http with
  | Except.error _ => Except.error ()
  | Except.ok (status, bodyE) =>
    if 400 ≤ status then Except.error ()
    else
      match bodyE with
      | Except.error _ => Except.error ()
      | Except.ok body =>
        match body with
        | Json.arr items =>
          if items.all isObjJson then
            Except.ok (((items.map objFields).filter (fun h => dateMatches h date)).map
              (fun h => pyOr (dictGet h "localName".data) (dictGet h "name".data)))
          else Except.error ()
        | Json.obj [] => Except.ok []
        | Json.str [] => Except.ok []
        | _ => Except.error ()

/-- `get_holidays`: the `try`/`except` swallows every exception of the
body and degrades to the empty list. -/
def get_holidays (date : List Char) (http : HolidayOutcome) : List Json :=
  match get_holidays_run date http with
  | Except.ok l => l
  | Except.error _ => []

/-- The canned Idea list substituted when `ALLOW_MOCKS` is on
(src/chatgpt.py lines 214-224). -/
def mockIdeas (industry date : List Char) (holidays : List (List Char)) : Json :=
  Json.arr [
    Json.obj [("tytuł".data, Json.str ("Szybka promocja dla ".data ++ industry)),
              ("opis".data, Json.str ("Krótkie akcje związane z ".data ++
                (if holidays = [] then "okazją".data else List.intercalate ", ".data holidays) ++
                " na ".data ++ date ++ ".".data))],
    Json.obj [("tytuł".data, Json.str ("Konkurs social dla ".data ++ industry)),
              ("opis".data,
               Json.str "Konkurs z hashtagiem i nagrodami, promowany w social media.".data)]]

/-- The `RuntimeError` message of src/chatgpt.py line 226. -/
def runtimeErrMsg : List Char :=
  "Nie udało się wygenerować pomysłów — Anthropic nie zwrócił poprawnej odpowiedzi.".data

/-- `generate_ideas` (src/chatgpt.py lines 189-226).  `apiKey` is the
truthiness of `ANTHROPIC_API_KEY`, `allowMocks` of `ALLOW_MOCKS`; `llm`
models `_call_anthropic_messages` (applied to the built prompt, raising
`Except.error` on any LLM-service failure).  The holiday names are
passed in as the string list the source obtains from `get_holidays`
(modelled separately above).  The `try` of lines 196-211 catches both
an `llm` failure and a `normalizeResp` failure (the `ValueError` of
line 209) and falls through to the mock fallback or the final
`RuntimeError`. -/
def generate_ideas (apiKey allowMocks : Bool)
    (llm : List Char → Except Unit (List Char))
    (industry date : List Char) (holidays : List (List Char)) :
    Except (List Char) Json :=
  let prompt := build_prompt industry date holidays
  let fallback : Except (List Char) Json :=
    if allowMocks then Except.ok (mockIdeas industry date holidays)
    else Except.error runtimeErrMsg
  if apiKey then
    match llm prompt with
    | Except.error _ => fallback
    | Except.ok raw =>
      match normalizeResp raw with
      | Except.ok parsed => Except.ok parsed
      | Except.error _ => fallback
  else fallback

/-- The 400 body of the GET route (src/chatgpt.py line 243). -/
def errObjGet : Json :=
  Json.obj [("error".data, Json.str "Parametry \x27industry\x27 i \x27date\x27 są wymagane.".data)]

/-- The 400 body of the POST route for a non-JSON request (line 255). -/
def errObjBody : Json :=
  Json.obj [("error".data, Json.str "Oczekiwany JSON w body.".data)]

/-- The 400 body of the POST route for missing fields (line 261). -/
def errObjPost : Json :=
  Json.obj [("error".data, Json.str "\x27industry\x27 i \x27date\x27 są wymagane w JSON.".data)]

/-- A missing or empty request parameter: `request.args.get` /
`payload.get` yield `None` when absent, and `if not industry or not
date` also rejects the empty string. -/
def missingParam : Option (List Char) → Bool
  | none => true
  | some s => s.isEmpty

/-- `ideas_get` (src/chatgpt.py lines 236-248), parameterized by the
`generate_ideas` call it would make (industry → date → country →
outcome) so that non-invocation is expressible.  Returns the HTTP
status and the JSON body. -/
def ideas_get (gen : List Char → List Char → List Char → Except (List Char) Json)
    (industry? date? country? : Option (List Char)) : Nat × Json :=
  let country := country?.getD "PL".data
  match industry?, date? with
  | some i, some d =>
    if i.isEmpty || d.isEmpty then (400, errObjGet)
    else
      match gen i d country with
      | Except.ok v => (200, v)
      | Except.error e => (500, Json.obj [("error".data, Json.str e)])
  | _, _ => (400, errObjGet)

/-- `ideas_post` (src/chatgpt.py lines 251-266): a non-JSON body is
rejected first; then the payload fields are checked as in the GET
route. -/
def ideas_post (gen : List Char → List Char → List Char → Except (List Char) Json)
    (isJson : Bool) (industry? date? country? : Option (List Char)) : Nat × Json :=
  if ¬ isJson then (400, errObjBody)
  else
    let country := country?.getD "PL".data
    match industry?, date? with
    | some i, some d =>
      if i.isEmpty || d.isEmpty then (400, errObjPost)
      else
        match gen i d country with
        | Except.ok v => (200, v)
        | Except.error e => (500, Json.obj [("error".data, Json.str e)])
    | _, _ => (400, errObjPost)

/-! ## Sanity checks: concrete evaluations of the embedding -/

example : jsonLoads true "42".data = Except.ok (Json.num ['4', '2']) := rfl

example : jsonLoads true "[1,2]".data =
    Except.ok (Json.arr [Json.num ['1'], Json.num ['2']]) := rfl

example : jsonLoads true " null ".data = Except.ok Json.null := rfl

example : jsonLoads true "[1,2] x".data = Except.error () := rfl

example : jsonLoads true "\x7b\"a\": true\x7d".data =
    Except.ok (Json.obj [(['a'], Json.bool true)]) := rfl

example : jsonLoads true "\"a\tb\"".data = Except.error () := rfl

example : jsonLoads false "\"a\tb\"".data =
    Except.ok (Json.str ['a', '\t', 'b']) := rfl

example : strip_code_fence " x".data = "x".data := rfl

example : strip_code_fence "```json\n[1]\n```".data = "[1]".data := rfl

example : strip_code_fence "```json\n[1]\n``` trailing".data = "[1]".data := rfl

example : normalizeResp "42".data = Except.ok (Json.num ['4', '2']) := rfl

example : normalizeResp "xyz".data = Except.error (parseErrMsg "xyz".data) := rfl

example : extract_json "Here is it: [1,2] extra junk".data =
    some (Json.arr [Json.num ['1'], Json.num ['2']]) := rfl

example : extractSpec "Here is it: [1,2] extra junk".data =
    some (Json.arr [Json.num ['1'], Json.num ['2']]) := rfl

example : normalizeResp (fenceWrap "```[5]\nxyz".data) =
    Except.ok (Json.arr [Json.num ['5']]) := rfl

example : normalizeResp "```[5]\nxyz".data = Except.error (parseErrMsg "xyz".data) := rfl

example : get_holidays "2024-01-01".data (Except.error ()) = [] := rfl

example :
    get_holidays "2024-01-01".data
      (Except.ok (200, Except.ok (Json.arr
        [Json.obj [("date".data, Json.str "2024-01-01".data),
                   ("localName".data, Json.str "New Year".data)]]))) =
      [Json.str "New Year".data] := rfl

example : get_holidays "2024-01-01".data (Except.ok (404, Except.ok (Json.arr []))) = [] := rfl

example :
    generate_ideas true false (fun _ => Except.error ()) "Bakery".data "2024".data [] =
      Except.error runtimeErrMsg := rfl

example :
    generate_ideas true true (fun _ => Except.error ()) "Bakery".data "2024".data [] =
      Except.ok (mockIdeas "Bakery".data "2024".data []) := rfl

example :
    ideas_get (fun _ _ _ => Except.ok Json.null) none (some "2024".data) none =
      (400, errObjGet) := rfl

/-! ## Helper lemmas -/

/-- Membership survives `pyStrip`. -/
theorem mem_pyStrip {c : Char} {s : List Char} (h : c ∈ pyStrip s) : c ∈ s := by
  unfold pyStrip at h
  rw [List.mem_reverse] at h
  have h2 := (List.dropWhile_sublist pyWs).subset h
  rw [List.mem_reverse] at h2
  exact (List.dropWhile_sublist pyWs).subset h2

/-- Membership survives `strip_code_fence`. -/
theorem mem_strip_code_fence {c : Char} {s : List Char}
    (h : c ∈ strip_code_fence s) : c ∈ s := by
  unfold strip_code_fence at h
  by_cases he : s = []
  · rw [if_pos he] at h; exact h
  · rw [if_neg he] at h
    dsimp only at h
    split at h
    · exact mem_pyStrip h
    · split at h
      · exact mem_pyStrip h
      · split at h
        · exact mem_pyStrip (List.mem_of_mem_drop (List.mem_of_mem_take (mem_pyStrip h)))
        · exact mem_pyStrip (List.mem_of_mem_drop (mem_pyStrip h))

/-- When the stripped text does not start with the fence marker,
`_strip_code_fence` returns just the stripped text. -/
theorem strip_code_fence_no_fence {text : List Char}
    (h : ¬ fenceChars.isPrefixOf (pyStrip text)) :
    strip_code_fence text = pyStrip text := by
  unfold strip_code_fence
  by_cases he : text = []
  · subst he; rfl
  · rw [if_neg he, if_pos h]

/-! ## Claims C5, C8, C9, C7, C6, C2 -/

/-- C5 counterexample: on `" x"` (no fence marker, but leading
whitespace) the fence-stripping step does not pass the text through
unchanged: it strips the whitespace. -/
theorem claim_C5_counterexample : strip_code_fence " x".data ≠ " x".data := by decide

/-- C5 (amended): for every input text whose trimmed form does not
start with the triple-backtick marker, `_strip_code_fence` passes the
text through with only surrounding whitespace trimmed (`pyStrip`), in
particular unchanged whenever the text has no surrounding
whitespace. -/
theorem claim_C5 (text : List Char) (h : ¬ fenceChars.isPrefixOf (pyStrip text)) :
    strip_code_fence text = pyStrip text :=
  strip_code_fence_no_fence h

/-- Witness for C5 at `" x"`. -/
theorem claim_C5_witness :
    ¬ fenceChars.isPrefixOf (pyStrip " x".data) = true
    ∧ strip_code_fence " x".data = pyStrip " x".data :=
  ⟨by decide, claim_C5 " x".data (by decide)⟩

/-- C8: `build_prompt` with an empty holiday list embeds the literal
placeholder `"brak"` (a non-empty literal, not the empty joined
string), and with a non-empty list embeds the names joined with
`", "`; the surrounding template does not depend on the holidays. -/
theorem claim_C8 (industry date : List Char) (holidays : List (List Char)) :
    (holidays = [] →
      build_prompt industry date holidays =
        promptSeg1 ++ date ++ promptSeg2 ++ industry ++ promptSeg3 ++
          "brak".data ++ promptSeg4
      ∧ ("brak".data : List Char) ≠ [])
    ∧ (holidays ≠ [] →
      build_prompt industry date holidays =
        promptSeg1 ++ date ++ promptSeg2 ++ industry ++ promptSeg3 ++
          List.intercalate ", ".data holidays ++ promptSeg4) := by
  constructor
  · intro h
    exact ⟨by simp [build_prompt, h], by decide⟩
  · intro h
    simp [build_prompt, h]

/-- Witness for C8 at concrete inputs, empty and non-empty. -/
theorem claim_C8_witness :
    (build_prompt "Cukiernia".data "2024-01-01".data [] =
      promptSeg1 ++ "2024-01-01".data ++ promptSeg2 ++ "Cukiernia".data ++ promptSeg3 ++
        "brak".data ++ promptSeg4)
    ∧ (build_prompt "Cukiernia".data "2024-01-01".data ["Nowy Rok".data] =
      promptSeg1 ++ "2024-01-01".data ++ promptSeg2 ++ "Cukiernia".data ++ promptSeg3 ++
        List.intercalate ", ".data ["Nowy Rok".data] ++ promptSeg4) :=
  ⟨((claim_C8 "Cukiernia".data "2024-01-01".data []).1 rfl).1,
   (claim_C8 "Cukiernia".data "2024-01-01".data ["Nowy Rok".data]).2 (by simp)⟩

/-- C9: every exception in the body of `get_holidays` — the network
request raising, an HTTP error status (`raise_for_status`), an
unparseable body (`.json()` raising), or any later failure — is
swallowed and the function returns the empty list. -/
theorem claim_C9 (date : List Char) (http : HolidayOutcome) :
    (get_holidays_run date http = Except.error () → get_holidays date http = [])
    ∧ (http = Except.error () → get_holidays date http = [])
    ∧ (∀ status bodyE, 400 ≤ status → http = Except.ok (status, bodyE) →
        get_holidays date http = [])
    ∧ (∀ status, status < 400 → http = Except.ok (status, Except.error ()) →
        get_holidays date http = []) := by
  refine ⟨?_, ?_, ?_, ?_⟩
  · intro h; unfold get_holidays; rw [h]
  · intro h; subst h; rfl
  · intro st b h hb; subst hb
    simp [get_holidays, get_holidays_run, h]
  · intro st h4 hb; subst hb
    simp [get_holidays, get_holidays_run, Nat.not_le.mpr h4]

/-- Witness for C9: a raised network exception yields `[]`. -/
theorem claim_C9_witness : get_holidays "2024-01-01".data (Except.error ()) = [] :=
  (claim_C9 "2024-01-01".data (Except.error ())).2.1 rfl

/-- C7: a missing (or empty) `industry` or `date` makes both routes
answer 400 with the route's JSON error object, and the response does
not depend on the `generate_ideas` call at all (it is never made, so
neither is the LLM call). -/
theorem claim_C7
    (gen gen' : List Char → List Char → List Char → Except (List Char) Json)
    (industry? date? country? : Option (List Char)) (isJson : Bool)
    (h : missingParam industry? = true ∨ missingParam date? = true) :
    ideas_get gen industry? date? country? = (400, errObjGet)
    ∧ ideas_get gen industry? date? country? = ideas_get gen' industry? date? country?
    ∧ ideas_post gen isJson industry? date? country? =
        (400, if isJson then errObjPost else errObjBody)
    ∧ ideas_post gen isJson industry? date? country? =
        ideas_post gen' isJson industry? date? country? := by
  have hg : ∀ g : List Char → List Char → List Char → Except (List Char) Json,
      ideas_get g industry? date? country? = (400, errObjGet) := by
    intro g
    rcases industry? with _ | i <;> rcases date? with _ | d <;>
      simp [ideas_get, missingParam] at h ⊢
    rcases h with h | h <;> simp [h]
  have hp : ∀ g : List Char → List Char → List Char → Except (List Char) Json,
      ideas_post g isJson industry? date? country? =
        (400, if isJson then errObjPost else errObjBody) := by
    intro g
    cases isJson with
    | false => simp [ideas_post]
    | true =>
      rcases industry? with _ | i <;> rcases date? with _ | d <;>
        simp [ideas_post, missingParam] at h ⊢
      rcases h with h | h <;> simp [h]
  exact ⟨hg gen, (hg gen).trans (hg gen').symm, hp gen, (hp gen).trans (hp gen').symm⟩

/-- Witness for C7: missing `industry`, two different `generate_ideas`
oracles, both routes. -/
theorem claim_C7_witness :
    ideas_get (fun _ _ _ => Except.ok Json.null) none (some "2024-01-01".data) none =
      (400, errObjGet)
    ∧ ideas_get (fun _ _ _ => Except.ok Json.null) none (some "2024-01-01".data) none =
        ideas_get (fun _ _ _ => Except.error []) none (some "2024-01-01".data) none
    ∧ ideas_post (fun _ _ _ => Except.ok Json.null) true none (some "2024-01-01".data) none =
        (400, if true then errObjPost else errObjBody)
    ∧ ideas_post (fun _ _ _ => Except.ok Json.null) true none (some "2024-01-01".data) none =
        ideas_post (fun _ _ _ => Except.error []) true none (some "2024-01-01".data) none :=
  claim_C7 (fun _ _ _ => Except.ok Json.null) (fun _ _ _ => Except.error [])
    none (some "2024-01-01".data) none true (Or.inl rfl)

/-- C6: with the API key configured, a failure of the LLM call or of
the parsing of its response makes `generate_ideas` fail (the final
`RuntimeError`) when mocks are off, and yields the canned Idea list
when mocks are on. -/
theorem claim_C6 (llm : List Char → Except Unit (List Char))
    (industry date : List Char) (holidays : List (List Char))
    (h : llm (build_prompt industry date holidays) = Except.error ()
      ∨ ∃ raw e, llm (build_prompt industry date holidays) = Except.ok raw
          ∧ normalizeResp raw = Except.error e) :
    generate_ideas true false llm industry date holidays = Except.error runtimeErrMsg
    ∧ generate_ideas true true llm industry date holidays =
        Except.ok (mockIdeas industry date holidays) := by
  unfold generate_ideas
  rcases h with h | ⟨raw, e, h1, h2⟩
  · simp [h]
  · simp [h1, h2]

/-- Witness for C6: an LLM call that raises. -/
theorem claim_C6_witness :
    generate_ideas true false (fun _ => Except.error ()) "Piekarnia".data "2024-01-01".data [] =
      Except.error runtimeErrMsg
    ∧ generate_ideas true true (fun _ => Except.error ()) "Piekarnia".data "2024-01-01".data [] =
        Except.ok (mockIdeas "Piekarnia".data "2024-01-01".data []) :=
  claim_C6 (fun _ => Except.error ()) "Piekarnia".data "2024-01-01".data [] (Or.inl rfl)

/-- No `[` or `{` anywhere means the candidate scan of `_extract_json`
never starts: the function returns `None`. -/
theorem extract_json_none_of_no_bracket {text : List Char}
    (h : ∀ c ∈ text, ¬(c = '[' ∨ c = '{')) : extract_json text = none := by
  have hfind : text.findIdx? (fun c => c = '[' || c = '{') = none := by
    rw [List.findIdx?_eq_none_iff]
    intro x hx
    simpa using h x hx
  unfold extract_json extract_json_run
  by_cases he : text = []
  · rw [if_pos he]
  · rw [if_neg he, hfind]

/-- C2 counterexample: `"42"` contains no `[` and no `{`, yet
normalization succeeds with the number 42 instead of failing with
`ParseError` (the strict parse of step 2 already succeeds). -/
theorem claim_C2_counterexample :
    (∀ c ∈ "42".data, ¬(c = '[' ∨ c = '{'))
    ∧ normalizeResp "42".data = Except.ok (Json.num ['4', '2']) :=
  ⟨by decide, rfl⟩

/-- C2 (amended): for every input text with no `[` and no `{` on which
the strict parse of the fence-stripped text also fails (or yields
`null`, which Python conflates with no value), normalization fails
with the `ValueError` carrying the first 300 characters of the
offending (fence-stripped) text. -/
theorem claim_C2 (raw : List Char)
    (hb : ∀ c ∈ raw, ¬(c = '[' ∨ c = '{'))
    (hp : jsonLoads true (strip_code_fence raw) = Except.error ()
      ∨ jsonLoads true (strip_code_fence raw) = Except.ok Json.null) :
    normalizeResp raw = Except.error (parseErrMsg (strip_code_fence raw)) := by
  have hex : extract_json (strip_code_fence raw) = none :=
    extract_json_none_of_no_bracket (fun c hc => hb c (mem_strip_code_fence hc))
  unfold normalizeResp
  dsimp only
  rcases hp with hp | hp
  · rw [hp, hex]
  · rw [hp]
    rfl

/-- Witness for C2 at `"xyz"`. -/
theorem claim_C2_witness :
    normalizeResp "xyz".data = Except.error (parseErrMsg (strip_code_fence "xyz".data)) :=
  claim_C2 "xyz".data (by decide) (Or.inl rfl)

/-! ## Claim C4: fence equivalence -/

/-- `dropWhile` keeps a list whose head fails the predicate. -/
theorem dropWhile_cons_false {p : Char → Bool} {a : Char} {l : List Char}
    (h : p a = false) : List.dropWhile p (a :: l) = a :: l := by
  simp [List.dropWhile_cons, h]

/-- A list with non-whitespace first and last characters is unchanged
by `pyStrip`. -/
theorem pyStrip_cons_snoc {a b : Char} (ha : pyWs a = false) (hb : pyWs b = false)
    (l : List Char) : pyStrip (a :: (l ++ [b])) = a :: (l ++ [b]) := by
  unfold pyStrip
  rw [dropWhile_cons_false ha]
  rw [show (a :: (l ++ [b])).reverse = b :: (l.reverse ++ [a]) from by simp]
  rw [dropWhile_cons_false hb]
  simp

/-- Appending one whitespace character does not change the stripped
text. -/
theorem pyStrip_append_ws {c : Char} (hc : pyWs c = true) (s : List Char) :
    pyStrip (s ++ [c]) = pyStrip s := by
  unfold pyStrip
  rw [List.dropWhile_append]
  by_cases he : (List.dropWhile pyWs s).isEmpty
  · rw [if_pos he]
    rw [List.isEmpty_iff] at he
    rw [he]
    simp [List.dropWhile_cons, hc]
  · rw [if_neg he]
    rw [show (List.dropWhile pyWs s ++ [c]).reverse = c :: (List.dropWhile pyWs s).reverse
      from by simp]
    rw [List.dropWhile_cons]
    simp [hc]

/-- The fenced wrapping starts and ends with a backtick, so `pyStrip`
leaves it unchanged. -/
theorem pyStrip_fenceWrap (B : List Char) : pyStrip (fenceWrap B) = fenceWrap B := by
  have h : fenceWrap B = '`' :: (("``json\n".data ++ B ++ "\n``".data) ++ ['`']) := by
    unfold fenceWrap
    rw [show "```json\n".data = '`' :: "``json\n".data from rfl,
        show "\n```".data = "\n``".data ++ ['`'] from by decide]
    simp
  rw [h, pyStrip_cons_snoc (by decide) (by decide)]

/-- The first newline of the fenced wrapping is at index 7, right after
the `\x60\x60\x60json` tag. -/
theorem findIdx_newline_fenceWrap (B : List Char) :
    List.findIdx? (fun c => c = '\n') (fenceWrap B) = some 7 := by
  rw [show fenceWrap B = '`' :: '`' :: '`' :: 'j' :: 's' :: 'o' :: 'n' :: '\n' ::
      (B ++ "\n```".data) from rfl]
  rw [List.findIdx?_cons, if_neg (by decide), List.findIdx?_cons, if_neg (by decide),
      List.findIdx?_cons, if_neg (by decide), List.findIdx?_cons, if_neg (by decide),
      List.findIdx?_cons, if_neg (by decide), List.findIdx?_cons, if_neg (by decide),
      List.findIdx?_cons, if_neg (by decide), List.findIdx?_cons, if_pos (by decide)]

/-- In `B ++ "\n\x60\x60\x60"` the last occurrence of the `\x60\x60\x60` marker starts
at index `B.length + 1`, the final three characters. -/
theorem pyRFind_fence (B : List Char) :
    pyRFind fenceChars (B ++ "\n```".data) = some (B.length + 1) := by
  unfold pyRFind
  have hp1 : fenceChars.isPrefixOf ((B ++ "\n```".data).drop (B.length + 1)) = true := by
    rw [List.drop_append 1]
    decide
  have hlen : (B ++ "\n```".data).length + 1 = B.length + 5 := by simp
  rw [hlen]
  have hr5 : List.range (B.length + 5) =
      ((List.range (B.length + 1) ++ [B.length + 1]) ++ [B.length + 2]) ++
        [B.length + 3] ++ [B.length + 4] := by
    rw [← List.range_succ, ← List.range_succ, ← List.range_succ, ← List.range_succ]
  rw [hr5]
  rw [List.filter_append, List.filter_append, List.filter_append, List.filter_append]
  have h2 : List.filter (fun i => fenceChars.isPrefixOf ((B ++ "\n```".data).drop i))
      [B.length + 2] = [] := by
    rw [List.filter_singleton, List.drop_append 2,
      show fenceChars.isPrefixOf (List.drop 2 "\n```".data) = false from by decide]
    rfl
  have h3 : List.filter (fun i => fenceChars.isPrefixOf ((B ++ "\n```".data).drop i))
      [B.length + 3] = [] := by
    rw [List.filter_singleton, List.drop_append 3,
      show fenceChars.isPrefixOf (List.drop 3 "\n```".data) = false from by decide]
    rfl
  have h4 : List.filter (fun i => fenceChars.isPrefixOf ((B ++ "\n```".data).drop i))
      [B.length + 4] = [] := by
    rw [List.filter_singleton, List.drop_append 4,
      show fenceChars.isPrefixOf (List.drop 4 "\n```".data) = false from by decide]
    rfl
  have h1 : List.filter (fun i => fenceChars.isPrefixOf ((B ++ "\n```".data).drop i))
      [B.length + 1] = [B.length + 1] := by
    rw [List.filter_singleton, hp1]
    rfl
  rw [h1, h2, h3, h4]
  simp

/-- Stripping the fence from the fenced wrapping of any body `B` yields
the stripped body: the first line (the `\x60\x60\x60json` tag) is dropped, the
cut happens at the appended closing marker (the last occurrence of
`\x60\x60\x60`), and the final strip removes the newline that preceded it. -/
theorem strip_code_fence_fenceWrap (B : List Char) :
    strip_code_fence (fenceWrap B) = pyStrip B := by
  have hne : fenceWrap B ≠ [] := by
    rw [show fenceWrap B = '`' :: '`' :: '`' :: 'j' :: 's' :: 'o' :: 'n' :: '\n' ::
      (B ++ "\n```".data) from rfl]
    exact List.cons_ne_nil _ _
  have hpre : fenceChars.isPrefixOf (fenceWrap B) = true := rfl
  unfold strip_code_fence
  rw [if_neg hne]
  dsimp only
  rw [pyStrip_fenceWrap]
  rw [if_neg (not_not_intro hpre)]
  rw [findIdx_newline_fenceWrap]
  dsimp only
  rw [show (fenceWrap B).drop (7 + 1) = B ++ "\n```".data from rfl]
  rw [pyRFind_fence]
  dsimp only
  rw [show List.take (B.length + 1) (B ++ "\n```".data) = B ++ ['\n'] from List.take_append 1]
  rw [pyStrip_append_ws (by decide)]

/-- C4 counterexample: for the body `B = "\x60\x60\x60[5]\nxyz"`, normalizing
the fenced wrapping recovers `[5]` (the stray tag line keeps its `[5]`
visible to the candidate scan), while normalizing `B` directly strips
`B`'s own fence marker down to `"xyz"` and fails with `ParseError` —
the two normalizations disagree. -/
theorem claim_C4_counterexample :
    normalizeResp (fenceWrap "```[5]\nxyz".data) = Except.ok (Json.arr [Json.num ['5']])
    ∧ normalizeResp "```[5]\nxyz".data = Except.error (parseErrMsg "xyz".data)
    ∧ normalizeResp (fenceWrap "```[5]\nxyz".data) ≠ normalizeResp "```[5]\nxyz".data := by
  refine ⟨rfl, rfl, ?_⟩
  rw [show normalizeResp (fenceWrap "```[5]\nxyz".data) =
      Except.ok (Json.arr [Json.num ['5']]) from rfl,
    show normalizeResp "```[5]\nxyz".data = Except.error (parseErrMsg "xyz".data) from rfl]
  simp

/-- C4 (amended): for any body `B` whose trimmed form does not itself
start with the triple-backtick marker, normalizing the fenced wrapping
`"\x60\x60\x60json\n" ++ B ++ "\n\x60\x60\x60"` yields the same result as normalizing
`B` directly.  (When `B` itself starts with a fence marker the claim
fails, as the counterexample shows.) -/
theorem claim_C4 (B : List Char) (h : ¬ fenceChars.isPrefixOf (pyStrip B)) :
    normalizeResp (fenceWrap B) = normalizeResp B := by
  unfold normalizeResp
  rw [strip_code_fence_fenceWrap, strip_code_fence_no_fence h]

/-- Witness for C4 at `B = "[1,2]"`. -/
theorem claim_C4_witness :
    ¬ fenceChars.isPrefixOf (pyStrip "[1,2]".data) = true
    ∧ normalizeResp (fenceWrap "[1,2]".data) = normalizeResp "[1,2]".data :=
  ⟨by decide, claim_C4 "[1,2]".data (by decide)⟩

/-! ## Claims C1 and C10: the extraction routine -/

/-- Unfolding: zero fuel fails. -/
theorem parseCore_zero (st : Bool) (m : PMode) (s : List Char) :
    parseCore 0 st m s = none := rfl

/-- Unfolding of the array-element loop. -/
theorem parseCore_items_eq (f : Nat) (st : Bool) (acc : List Json) (s : List Char) :
    parseCore (f + 1) st (PMode.items acc) s =
      (match parseCore f st PMode.value s with
       | none => none
       | some (v, r) =>
         match r.dropWhile jsonWs with
         | ',' :: r2 => parseCore f st (PMode.items (acc ++ [v])) (r2.dropWhile jsonWs)
         | ']' :: r2 => some (Json.arr (acc ++ [v]), r2)
         | _ => none) := rfl

/-- Unfolding of the object-member loop. -/
theorem parseCore_members_eq (f : Nat) (st : Bool) (acc : List (List Char × Json))
    (s : List Char) :
    parseCore (f + 1) st (PMode.members acc) s =
      (match s with
       | '"' :: rest =>
         match parseStringBody st rest with
         | none => none
         | some (k, r1) =>
           match r1.dropWhile jsonWs with
           | ':' :: r2 =>
             match parseCore f st PMode.value (r2.dropWhile jsonWs) with
             | none => none
             | some (v, r3) =>
               match r3.dropWhile jsonWs with
               | '}' :: r4 => some (Json.obj (objUpdate acc k v), r4)
               | ',' :: r4 => parseCore f st (PMode.members (objUpdate acc k v)) (r4.dropWhile jsonWs)
               | _ => none
           | _ => none
       | _ => none) := rfl

/-- Unfolding of a value starting with `[`. -/
theorem parseCore_value_lbrack (f : Nat) (st : Bool) (t : List Char) :
    parseCore (f + 1) st PMode.value ('[' :: t) =
      (match t.dropWhile jsonWs with
       | ']' :: r => some (Json.arr [], r)
       | s2 => parseCore f st (PMode.items []) s2) := rfl

/-- Unfolding of a value starting with `\x7b`. -/
theorem parseCore_value_lbrace (f : Nat) (st : Bool) (t : List Char) :
    parseCore (f + 1) st PMode.value ('{' :: t) =
      (match t.dropWhile jsonWs with
       | '}' :: r => some (Json.obj [], r)
       | s2 => parseCore f st (PMode.members []) s2) := rfl

/-- The array loop only ever returns arrays. -/
theorem parseCore_items_arr :
    ∀ f st acc s v r, parseCore f st (PMode.items acc) s = some (v, r) →
      ∃ l, v = Json.arr l := by
  intro f
  induction f with
  | zero => intro st acc s v r h; rw [parseCore_zero] at h; cases h
  | succ f ih =>
    intro st acc s v r h
    rw [parseCore_items_eq] at h
    cases hv : parseCore f st PMode.value s with
    | none => rw [hv] at h; cases h
    | some p =>
      obtain ⟨v1, r1⟩ := p
      rw [hv] at h
      dsimp only at h
      split at h
      · exact ih _ _ _ _ _ h
      · cases h; exact ⟨_, rfl⟩
      · cases h

/-- The object loop only ever returns objects. -/
theorem parseCore_members_obj :
    ∀ f st acc s v r, parseCore f st (PMode.members acc) s = some (v, r) →
      ∃ l, v = Json.obj l := by
  intro f
  induction f with
  | zero => intro st acc s v r h; rw [parseCore_zero] at h; cases h
  | succ f ih =>
    intro st acc s v r h
    rw [parseCore_members_eq] at h
    split at h
    · split at h
      · cases h
      · split at h
        · split at h
          · cases h
          · split at h
            · cases h; exact ⟨_, rfl⟩
            · exact ih _ _ _ _ _ h
            · cases h
        · cases h
    · cases h

/-- A text whose first character is `[` or `{` can only strict- or
lenient-parse to an array or an object — never to `null` (which Python
would conflate with an absent value). -/
theorem jsonLoads_bracket_shape {st : Bool} {b : Char} {t : List Char}
    (hb : b = '[' ∨ b = '{') {v : Json} (h : jsonLoads st (b :: t) = Except.ok v) :
    (∃ l, v = Json.arr l) ∨ (∃ l, v = Json.obj l) := by
  unfold jsonLoads at h
  have hws : jsonWs b = false := by rcases hb with rfl | rfl <;> decide
  rw [show (b :: t).dropWhile jsonWs = b :: t from dropWhile_cons_false hws] at h
  cases hp : parseCore (jsonFuel (b :: t)) st PMode.value (b :: t) with
  | none => rw [hp] at h; cases h
  | some p =>
    obtain ⟨v1, r⟩ := p
    rw [hp] at h
    dsimp only at h
    split at h
    · have hv1 : v1 = v := by
        have := Except.ok.inj h
        exact this
      subst hv1
      have hf : jsonFuel (b :: t) = (2 * (b :: t).length + 1) + 1 := rfl
      rw [hf] at hp
      rcases hb with rfl | rfl
      · rw [parseCore_value_lbrack] at hp
        split at hp
        · cases hp; exact Or.inl ⟨_, rfl⟩
        · exact Or.inl (parseCore_items_arr _ _ _ _ _ _ hp)
      · rw [parseCore_value_lbrace] at hp
        split at hp
        · cases hp; exact Or.inr ⟨_, rfl⟩
        · exact Or.inr (parseCore_members_obj _ _ _ _ _ _ hp)
    · cases h

/-- The candidate loop never lets an exception escape: both parse
attempts of every candidate are inside `try`/`except`. -/
theorem extract_loop_ok (text : List Char) (start : Nat) :
    ∀ k, ∃ r, extract_loop text start k = Except.ok r := by
  intro k
  induction k with
  | zero => exact ⟨none, rfl⟩
  | succ k ih =>
    unfold extract_loop
    dsimp only
    cases h1 : jsonLoads true ((text.drop start).take (k + 1)) with
    | ok v => exact ⟨nullToNone v, rfl⟩
    | error e =>
      cases h2 : jsonLoads false ((text.drop start).take (k + 1)) with
      | ok v => exact ⟨nullToNone v, rfl⟩
      | error e2 =>
        obtain ⟨r, hr⟩ := ih
        exact ⟨r, hr⟩

/-- The candidate loop, counted down from `k`, equals the longest-first
`findSome?` over the candidate end positions `start + k, …, start + 1`
— provided the character at `start` is a bracket, which rules out a
candidate parsing to `null`. -/
theorem extract_loop_eq_findSome (text : List Char) (start : Nat) (b : Char)
    (hb : b = '[' ∨ b = '{') (hd : text.drop start = b :: text.drop (start + 1)) :
    ∀ k, extract_loop text start k =
      Except.ok (((List.range k).map (fun i => start + k - i)).findSome?
        (fun j => tryParseCandidate ((text.drop start).take (j - start)))) := by
  intro k
  induction k with
  | zero => rfl
  | succ k ih =>
    rw [List.range_succ_eq_map, List.map_cons, List.map_map, List.findSome?_cons]
    have hcomp : ((fun i => start + (k + 1) - i) ∘ Nat.succ) = (fun i => start + k - i) := by
      funext i
      simp only [Function.comp_apply, Nat.succ_eq_add_one]
      omega
    rw [hcomp]
    have hj0 : start + (k + 1) - 0 = start + (k + 1) := by omega
    rw [hj0]
    have hjs : start + (k + 1) - start = k + 1 := by omega
    rw [hjs]
    have hcand : (text.drop start).take (k + 1) =
        b :: (text.drop (start + 1)).take k := by
      rw [hd, List.take_succ_cons]
    unfold extract_loop
    unfold tryParseCandidate
    dsimp only
    cases h1 : jsonLoads true ((text.drop start).take (k + 1)) with
    | ok v =>
      have hshape := jsonLoads_bracket_shape hb (hcand ▸ h1)
      have hnn : nullToNone v = some v := by
        rcases hshape with ⟨l, rfl⟩ | ⟨l, rfl⟩ <;> rfl
      dsimp only
      rw [hnn]
    | error e =>
      cases h2 : jsonLoads false ((text.drop start).take (k + 1)) with
      | ok v =>
        have hshape := jsonLoads_bracket_shape hb (hcand ▸ h2)
        have hnn : nullToNone v = some v := by
          rcases hshape with ⟨l, rfl⟩ | ⟨l, rfl⟩ <;> rfl
        dsimp only
        rw [hnn]
      | error e2 =>
        dsimp only
        exact ih

/-- C1: `_extract_json` behaves exactly as the claim describes — it
finds the first `[` or `{`, fails (returns `None`) when there is none,
and otherwise returns the first success among the candidates
`text[start:j]`, `j` from `len(text)` down to `start + 1`, longest
first, each tried strictly and then leniently — and no exception
escapes (`extract_json_run` is `ok`). -/
theorem claim_C1 (text : List Char) :
    extract_json text = extractSpec text
    ∧ extract_json_run text = Except.ok (extractSpec text) := by
  have main : extract_json_run text = Except.ok (extractSpec text) := by
    unfold extract_json_run extractSpec
    by_cases he : text = []
    · rw [if_pos he, he]
      rfl
    · rw [if_neg he]
      cases hf : text.findIdx? (fun c => c = '[' || c = '{') with
      | none => rfl
      | some start =>
        obtain ⟨hlt, hp, -⟩ := List.findIdx?_eq_some_iff_getElem.mp hf
        have hb : text[start] = '[' ∨ text[start] = '{' := by simpa using hp
        have hd : text.drop start = text[start] :: text.drop (start + 1) :=
          List.drop_eq_getElem_cons hlt
        dsimp only
        rw [extract_loop_eq_findSome text start text[start] hb hd (text.length - start)]
        congr 2
        apply List.map_congr_left
        intro i hi
        omega
  exact ⟨by unfold extract_json; rw [main], main⟩

/-- C10: for every input string the extraction routine returns a value
(`some` parsed JSON or `none` for Python's `None`) and never raises:
every candidate parse failure, strict and lenient, is caught
internally. -/
theorem claim_C10 (text : List Char) :
    ∃ r, extract_json_run text = Except.ok r ∧ extract_json text = r := by
  have : ∃ r, extract_json_run text = Except.ok r := by
    unfold extract_json_run
    by_cases he : text = []
    · rw [if_pos he]; exact ⟨none, rfl⟩
    · rw [if_neg he]
      cases hf : text.findIdx? (fun c => c = '[' || c = '{') with
      | none => exact ⟨none, rfl⟩
      | some start => exact extract_loop_ok text start (text.length - start)
  obtain ⟨r, hr⟩ := this
  exact ⟨r, hr, by unfold extract_json; rw [hr]⟩

/-! ## Claim C3: parser structure lemmas -/

/-- `getLast?` ignores a prepended element when the list is nonempty. -/
theorem getLast?_cons_some {α : Type} {a x : α} {l : List α}
    (h : l.getLast? = some x) : (a :: l).getLast? = some x := by
  cases l with
  | nil => simp at h
  | cons b t => rw [List.getLast?_cons_cons]; exact h

set_option maxHeartbeats 1000000 in
/-- Reduction of `parseStringBody` on an ordinary content character. -/
theorem parseStringBody_cons_default {st : Bool} {ch : Char}
    (h1 : ch ≠ '"') (h2 : ch ≠ '\\') (rest : List Char) :
    parseStringBody st (ch :: rest) =
      if ch.toNat < 0x20 ∧ st then none
      else (parseStringBody st rest).map (fun p => (ch :: p.1, p.2)) := by
  rw [parseStringBody.eq_def]
  split <;> simp_all

/-- Reduction of `parseStringBody` on a `\u` escape. -/
theorem parseStringBody_u (st : Bool) (h1 h2 h3 h4 : Char) (r : List Char) :
    parseStringBody st ('\\' :: 'u' :: h1 :: h2 :: h3 :: h4 :: r) =
      (match hex4 h1 h2 h3 h4 with
       | none => none
       | some n =>
         if 0xD800 ≤ n ∧ n ≤ 0xDBFF then
           match r with
           | '\\' :: 'u' :: g1 :: g2 :: g3 :: g4 :: r2 =>
             match hex4 g1 g2 g3 g4 with
             | none => none
             | some m =>
               if 0xDC00 ≤ m ∧ m ≤ 0xDFFF then
                 (parseStringBody st r2).map (fun p =>
                   (Char.ofNat (0x10000 + (n - 0xD800) * 0x400 + (m - 0xDC00)) :: p.1, p.2))
               else none
           | _ => none
         else if 0xDC00 ≤ n ∧ n ≤ 0xDFFF then none
         else (parseStringBody st r).map (fun p => (Char.ofNat n :: p.1, p.2))) := by
  simp only [parseStringBody]

set_option maxHeartbeats 2000000 in
/-- Structure of a successful string-body parse: the consumed prefix
ends with the closing quote, and the parse is local — it never looks at
anything past that quote, so any continuation may replace the rest. -/
theorem parseStringBody_struct (st : Bool) :
    ∀ (s k r : List Char), parseStringBody st s = some (k, r) →
      ∃ c, s = c ++ r ∧ c.getLast? = some '"' ∧
        ∀ r2, parseStringBody st (c ++ r2) = some (k, r2) := by
  have main : ∀ (n : Nat) (s : List Char), s.length ≤ n → ∀ k r,
      parseStringBody st s = some (k, r) →
      ∃ c, s = c ++ r ∧ c.getLast? = some '"' ∧
        ∀ r2, parseStringBody st (c ++ r2) = some (k, r2) := by
    intro n
    induction n with
    | zero =>
      intro s hlen k r h
      rw [List.length_eq_zero.mp (Nat.le_zero.mp hlen)] at h
      exact absurd h (by simp [parseStringBody])
    | succ n ih =>
      intro s hlen k r h
      rw [parseStringBody.eq_def] at h
      split at h
      · exact absurd h (by simp)
      · cases h
        exact ⟨['"'], rfl, rfl, fun r2 => rfl⟩
      · split at h
        · rename_i r0
          rw [Option.map_eq_some'] at h
          obtain ⟨⟨k1, r1⟩, hin, hmap⟩ := h
          cases hmap
          have hlen2 : r0.length ≤ n := by simp at hlen; omega
          obtain ⟨c1, hc1, hlast, hloc⟩ := ih r0 hlen2 k1 r1 hin
          refine ⟨'\\' :: '"' :: c1, by simp [hc1], getLast?_cons_some (getLast?_cons_some hlast), ?_⟩
          intro r2
          show (parseStringBody st (c1 ++ r2)).map (fun p => ('"' :: p.1, p.2)) = _
          rw [hloc r2]
          rfl
        · rename_i r0
          rw [Option.map_eq_some'] at h
          obtain ⟨⟨k1, r1⟩, hin, hmap⟩ := h
          cases hmap
          have hlen2 : r0.length ≤ n := by simp at hlen; omega
          obtain ⟨c1, hc1, hlast, hloc⟩ := ih r0 hlen2 k1 r1 hin
          refine ⟨'\\' :: '\\' :: c1, by simp [hc1], getLast?_cons_some (getLast?_cons_some hlast), ?_⟩
          intro r2
          show (parseStringBody st (c1 ++ r2)).map (fun p => ('\\' :: p.1, p.2)) = _
          rw [hloc r2]
          rfl
        · rename_i r0
          rw [Option.map_eq_some'] at h
          obtain ⟨⟨k1, r1⟩, hin, hmap⟩ := h
          cases hmap
          have hlen2 : r0.length ≤ n := by simp at hlen; omega
          obtain ⟨c1, hc1, hlast, hloc⟩ := ih r0 hlen2 k1 r1 hin
          refine ⟨'\\' :: '/' :: c1, by simp [hc1], getLast?_cons_some (getLast?_cons_some hlast), ?_⟩
          intro r2
          show (parseStringBody st (c1 ++ r2)).map (fun p => ('/' :: p.1, p.2)) = _
          rw [hloc r2]
          rfl
        · rename_i r0
          rw [Option.map_eq_some'] at h
          obtain ⟨⟨k1, r1⟩, hin, hmap⟩ := h
          cases hmap
          have hlen2 : r0.length ≤ n := by simp at hlen; omega
          obtain ⟨c1, hc1, hlast, hloc⟩ := ih r0 hlen2 k1 r1 hin
          refine ⟨'\\' :: 'b' :: c1, by simp [hc1], getLast?_cons_some (getLast?_cons_some hlast), ?_⟩
          intro r2
          show (parseStringBody st (c1 ++ r2)).map (fun p => ('\x08' :: p.1, p.2)) = _
          rw [hloc r2]
          rfl
        · rename_i r0
          rw [Option.map_eq_some'] at h
          obtain ⟨⟨k1, r1⟩, hin, hmap⟩ := h
          cases hmap
          have hlen2 : r0.length ≤ n := by simp at hlen; omega
          obtain ⟨c1, hc1, hlast, hloc⟩ := ih r0 hlen2 k1 r1 hin
          refine ⟨'\\' :: 'f' :: c1, by simp [hc1], getLast?_cons_some (getLast?_cons_some hlast), ?_⟩
          intro r2
          show (parseStringBody st (c1 ++ r2)).map (fun p => ('\x0c' :: p.1, p.2)) = _
          rw [hloc r2]
          rfl
        · rename_i r0
          rw [Option.map_eq_some'] at h
          obtain ⟨⟨k1, r1⟩, hin, hmap⟩ := h
          cases hmap
          have hlen2 : r0.length ≤ n := by simp at hlen; omega
          obtain ⟨c1, hc1, hlast, hloc⟩ := ih r0 hlen2 k1 r1 hin
          refine ⟨'\\' :: 'n' :: c1, by simp [hc1], getLast?_cons_some (getLast?_cons_some hlast), ?_⟩
          intro r2
          show (parseStringBody st (c1 ++ r2)).map (fun p => ('\n' :: p.1, p.2)) = _
          rw [hloc r2]
          rfl
        · rename_i r0
          rw [Option.map_eq_some'] at h
          obtain ⟨⟨k1, r1⟩, hin, hmap⟩ := h
          cases hmap
          have hlen2 : r0.length ≤ n := by simp at hlen; omega
          obtain ⟨c1, hc1, hlast, hloc⟩ := ih r0 hlen2 k1 r1 hin
          refine ⟨'\\' :: 'r' :: c1, by simp [hc1], getLast?_cons_some (getLast?_cons_some hlast), ?_⟩
          intro r2
          show (parseStringBody st (c1 ++ r2)).map (fun p => ('\r' :: p.1, p.2)) = _
          rw [hloc r2]
          rfl
        · rename_i r0
          rw [Option.map_eq_some'] at h
          obtain ⟨⟨k1, r1⟩, hin, hmap⟩ := h
          cases hmap
          have hlen2 : r0.length ≤ n := by simp at hlen; omega
          obtain ⟨c1, hc1, hlast, hloc⟩ := ih r0 hlen2 k1 r1 hin
          refine ⟨'\\' :: 't' :: c1, by simp [hc1], getLast?_cons_some (getLast?_cons_some hlast), ?_⟩
          intro r2
          show (parseStringBody st (c1 ++ r2)).map (fun p => ('\t' :: p.1, p.2)) = _
          rw [hloc r2]
          rfl
        · rename_i h1 h2 h3 h4 r0
          split at h
          · exact absurd h (by simp)
          · rename_i n0 hhex
            split at h
            · rename_i hsur
              split at h
              · rename_i g1 g2 g3 g4 r2
                split at h
                · exact absurd h (by simp)
                · rename_i m0 hgex
                  split at h
                  · rename_i hm
                    rw [Option.map_eq_some'] at h
                    obtain ⟨⟨k1, r1⟩, hin, hmap⟩ := h
                    cases hmap
                    have hlen2 : r2.length ≤ n := by
                      simp at hlen; omega
                    obtain ⟨c1, hc1, hlast, hloc⟩ := ih r2 hlen2 k1 r1 hin
                    refine ⟨'\\' :: 'u' :: h1 :: h2 :: h3 :: h4 ::
                        '\\' :: 'u' :: g1 :: g2 :: g3 :: g4 :: c1,
                      by simp [hc1],
                      getLast?_cons_some (getLast?_cons_some (getLast?_cons_some
                        (getLast?_cons_some (getLast?_cons_some (getLast?_cons_some
                        (getLast?_cons_some (getLast?_cons_some (getLast?_cons_some
                        (getLast?_cons_some (getLast?_cons_some
                        (getLast?_cons_some hlast))))))))))), ?_⟩
                    intro r3
                    rw [show ('\\' :: 'u' :: h1 :: h2 :: h3 :: h4 ::
                        '\\' :: 'u' :: g1 :: g2 :: g3 :: g4 :: c1) ++ r3 =
                      '\\' :: 'u' :: h1 :: h2 :: h3 :: h4 ::
                        ('\\' :: 'u' :: g1 :: g2 :: g3 :: g4 :: (c1 ++ r3)) from rfl]
                    rw [parseStringBody_u, hhex]
                    try dsimp only
                    rw [if_pos hsur]
                    split
                    · rename_i heq
                      simp only [List.cons.injEq] at heq
                      obtain ⟨rfl, rfl, rfl, rfl, rfl⟩ := heq.2.2
                      rw [hgex]
                      try dsimp only
                      rw [if_pos hm, hloc r3]
                      rfl
                    · rename_i hnomatch
                      exact absurd rfl (hnomatch g1 g2 g3 g4 (c1 ++ r3))
                  · exact absurd h (by simp)
              · exact absurd h (by simp)
            · rename_i hnsur
              split at h
              · exact absurd h (by simp)
              · rename_i hnlow
                rw [Option.map_eq_some'] at h
                obtain ⟨⟨k1, r1⟩, hin, hmap⟩ := h
                cases hmap
                have hlen2 : r0.length ≤ n := by simp at hlen; omega
                obtain ⟨c1, hc1, hlast, hloc⟩ := ih r0 hlen2 k1 r1 hin
                refine ⟨'\\' :: 'u' :: h1 :: h2 :: h3 :: h4 :: c1,
                  by simp [hc1],
                  getLast?_cons_some (getLast?_cons_some (getLast?_cons_some
                    (getLast?_cons_some (getLast?_cons_some
                    (getLast?_cons_some hlast))))), ?_⟩
                intro r3
                rw [show ('\\' :: 'u' :: h1 :: h2 :: h3 :: h4 :: c1) ++ r3 =
                  '\\' :: 'u' :: h1 :: h2 :: h3 :: h4 :: (c1 ++ r3) from rfl]
                rw [parseStringBody_u, hhex]
                try dsimp only
                rw [if_neg hnsur, if_neg hnlow, hloc r3]
                rfl
        · exact absurd h (by simp)
      · rename_i ch rest hq hb
        split at h
        · exact absurd h (by simp)
        · rename_i hctl
          rw [Option.map_eq_some'] at h
          obtain ⟨⟨k1, r1⟩, hin, hmap⟩ := h
          cases hmap
          have hlen2 : rest.length ≤ n := by simp at hlen; omega
          obtain ⟨c1, hc1, hlast, hloc⟩ := ih rest hlen2 k1 r1 hin
          refine ⟨ch :: c1, by simp [hc1], getLast?_cons_some hlast, ?_⟩
          intro r2
          show parseStringBody st (ch :: (c1 ++ r2)) = _
          rw [parseStringBody_cons_default (fun hx => hq hx) (fun hx => hb hx)]
          rw [if_neg hctl, hloc r2]
          rfl
  intro s
  exact main s.length s (le_refl _)

/-- `takeWhile` does not reach into an appended tail whose head fails
the predicate. -/
theorem takeWhile_append_of_head_false {p : Char → Bool} {z : List Char}
    (hz : z.takeWhile p = []) : ∀ u : List Char, (u ++ z).takeWhile p = u.takeWhile p := by
  intro u
  induction u with
  | nil => simpa using hz
  | cons c u ih =>
    by_cases hc : p c
    · simp [List.takeWhile_cons, hc, ih]
    · simp [List.takeWhile_cons, hc]

/-- `dropWhile` keeps an appended tail whose head fails the predicate. -/
theorem dropWhile_append_of_head_false {p : Char → Bool} {z : List Char}
    (hz : z.dropWhile p = z) : ∀ u : List Char, (u ++ z).dropWhile p = u.dropWhile p ++ z := by
  intro u
  induction u with
  | nil => simpa using hz
  | cons c u ih =>
    by_cases hc : p c
    · simp [List.dropWhile_cons, hc, ih]
    · simp [List.dropWhile_cons, hc]

/-- In a whitespace-only list no character is a digit. -/
theorem ws_takeWhile_isDig {z : List Char} (hz : ∀ c ∈ z, jsonWs c = true) :
    z.takeWhile isDig = [] := by
  cases z with
  | nil => rfl
  | cons c z =>
    have hws := hz c (by simp)
    have hcd : isDig c = false := by
      rcases (by simpa [jsonWs, or_assoc] using hws :
          c = ' ' ∨ c = '\t' ∨ c = '\n' ∨ c = '\r') with rfl | rfl | rfl | rfl <;> decide
    simp [List.takeWhile_cons, hcd]

/-- In a whitespace-only list the head is not a digit, so `dropWhile
isDig` keeps it whole. -/
theorem ws_dropWhile_isDig {z : List Char} (hz : ∀ c ∈ z, jsonWs c = true) :
    z.dropWhile isDig = z := by
  cases z with
  | nil => rfl
  | cons c z =>
    have h1 : (c :: z).takeWhile isDig = [] := ws_takeWhile_isDig hz
    rw [List.takeWhile_cons] at h1
    by_cases hc : isDig c
    · simp [hc] at h1
    · simp [List.dropWhile_cons, hc]

/-- A whitespace character is none of the characters the number regex
continues with. -/
theorem ws_char_cases {c : Char} (h : jsonWs c = true) :
    c = ' ' ∨ c = '\t' ∨ c = '\n' ∨ c = '\r' := by
  simpa [jsonWs, or_assoc] using h



/-- A nonempty list has a last element. -/
theorem exists_getLast?_some {α : Type} (d : α) (l : List α) :
    ∃ x, (d :: l).getLast? = some x ∧ x ∈ d :: l := by
  cases hgl : (d :: l).getLast? with
  | none => rw [List.getLast?_eq_none_iff] at hgl; cases hgl
  | some x => exact ⟨x, rfl, List.mem_of_mem_getLast? hgl⟩

/-- Appending whitespace-only text after the input of the exponent
matcher extends the rest and leaves the token unchanged. -/
theorem matchExp_append_ws {z : List Char} (hz : ∀ c ∈ z, jsonWs c = true) :
    ∀ tok u, matchNumber.matchExp tok (u ++ z) =
      ((matchNumber.matchExp tok u).1, (matchNumber.matchExp tok u).2 ++ z) := by
  have hzt : z.takeWhile isDig = [] := ws_takeWhile_isDig hz
  have hzd : z.dropWhile isDig = z := ws_dropWhile_isDig hz
  intro tok u
  cases u with
  | nil =>
    simp only [List.nil_append]
    cases z with
    | nil => rfl
    | cons c z' =>
      have hc : ¬(c = 'e' ∨ c = 'E') := by
        rcases ws_char_cases (hz c (by simp)) with rfl | rfl | rfl | rfl <;> decide
      simp only [matchNumber.matchExp]
      rw [if_neg hc]
      simp
  | cons e r =>
    simp only [List.cons_append, matchNumber.matchExp]
    by_cases he : e = 'e' ∨ e = 'E'
    · rw [if_pos he, if_pos he]
      cases r with
      | nil =>
        simp only [List.nil_append]
        have h1 : (z.head? = some '+') = False := by
          simp only [eq_iff_iff, iff_false]
          intro hh
          obtain ⟨ys, hys⟩ := List.head?_eq_some_iff.mp hh
          rcases ws_char_cases (hz '+' (by rw [hys]; simp)) with h | h | h | h <;> simp at h
        have h2 : (z.head? = some '-') = False := by
          simp only [eq_iff_iff, iff_false]
          intro hh
          obtain ⟨ys, hys⟩ := List.head?_eq_some_iff.mp hh
          rcases ws_char_cases (hz '-' (by rw [hys]; simp)) with h | h | h | h <;> simp at h
        simp only [h1, h2, if_false, List.head?_nil, List.tail_nil,
          reduceCtorEq, List.takeWhile_nil, hzt]
        simp
      | cons c r2 =>
        simp only [List.cons_append, List.head?_cons, List.tail_cons, Option.some.injEq]
        by_cases hcp : c = '+'
        · rw [if_pos hcp, if_pos hcp]
          rw [takeWhile_append_of_head_false hzt]
          cases htw : r2.takeWhile isDig with
          | nil => rfl
          | cons d ds => rw [dropWhile_append_of_head_false hzd]
        · rw [if_neg hcp, if_neg hcp]
          by_cases hcm : c = '-'
          · rw [if_pos hcm, if_pos hcm]
            rw [takeWhile_append_of_head_false hzt]
            cases htw : r2.takeWhile isDig with
            | nil => rfl
            | cons d ds => rw [dropWhile_append_of_head_false hzd]
          · rw [if_neg hcm, if_neg hcm]
            dsimp only
            rw [show List.takeWhile isDig (c :: (r2 ++ z)) =
              List.takeWhile isDig ((c :: r2) ++ z) from rfl]
            rw [takeWhile_append_of_head_false hzt]
            cases htw : (c :: r2).takeWhile isDig with
            | nil => simp
            | cons d ds =>
              dsimp only
              rw [show List.dropWhile isDig (c :: (r2 ++ z)) =
                List.dropWhile isDig ((c :: r2) ++ z) from rfl]
              rw [dropWhile_append_of_head_false hzd]
    · rw [if_neg he, if_neg he]
      simp

/-- The same whitespace-append equation for the fraction matcher. -/
theorem matchFrac_append_ws {z : List Char} (hz : ∀ c ∈ z, jsonWs c = true) :
    ∀ tok u, matchNumber.matchFrac tok (u ++ z) =
      ((matchNumber.matchFrac tok u).1, (matchNumber.matchFrac tok u).2 ++ z) := by
  have hzt : z.takeWhile isDig = [] := ws_takeWhile_isDig hz
  have hzd : z.dropWhile isDig = z := ws_dropWhile_isDig hz
  intro tok u
  cases u with
  | nil =>
    simp only [List.nil_append, matchNumber.matchFrac]
    have h1 : (z.head? = some '.') = False := by
      simp only [eq_iff_iff, iff_false]
      intro hh
      obtain ⟨ys, hys⟩ := List.head?_eq_some_iff.mp hh
      rcases ws_char_cases (hz '.' (by rw [hys]; simp)) with h | h | h | h <;> simp at h
    simp only [h1, if_false, List.head?_nil, reduceCtorEq]
    exact matchExp_append_ws hz tok []
  | cons c u' =>
    simp only [List.cons_append, matchNumber.matchFrac, List.head?_cons, List.tail_cons,
      Option.some.injEq]
    by_cases hcd : c = '.'
    · rw [if_pos hcd, if_pos hcd]
      rw [takeWhile_append_of_head_false hzt]
      cases htw : u'.takeWhile isDig with
      | nil =>
        exact matchExp_append_ws hz tok (c :: u')
      | cons d ds =>
        rw [dropWhile_append_of_head_false hzd]
        exact matchExp_append_ws hz (tok ++ '.' :: (d :: ds)) (u'.dropWhile isDig)
    · rw [if_neg hcd, if_neg hcd]
      exact matchExp_append_ws hz tok (c :: u')

/-- Appending whitespace-only text to the input of the number regex
extends the unmatched rest and leaves the matched token unchanged. -/
theorem matchNumber_append_ws {z : List Char} (hz : ∀ c ∈ z, jsonWs c = true)
    (u : List Char) :
    matchNumber (u ++ z) = (matchNumber u).map (fun p => (p.1, p.2 ++ z)) := by
  have hzt : z.takeWhile isDig = [] := ws_takeWhile_isDig hz
  have hzd : z.dropWhile isDig = z := ws_dropWhile_isDig hz
  cases u with
  | nil =>
    simp only [List.nil_append, matchNumber]
    have h1 : (z.head? = some '-') = False := by
      simp only [eq_iff_iff, iff_false]
      intro hh
      obtain ⟨ys, hys⟩ := List.head?_eq_some_iff.mp hh
      rcases ws_char_cases (hz '-' (by rw [hys]; simp)) with h | h | h | h <;> simp at h
    simp only [h1, if_false, List.head?_nil, reduceCtorEq]
    cases z with
    | nil => rfl
    | cons c z' =>
      have hc : isDig c = false := by
        rcases ws_char_cases (hz c (by simp)) with rfl | rfl | rfl | rfl <;> decide
      have hc0 : ¬ c = '0' := by
        intro hh; rw [hh] at hc; simp [isDig] at hc
      dsimp only
      rw [if_neg hc0, if_neg (by simp [hc])]
      rfl
  | cons c u' =>
    simp only [List.cons_append, matchNumber, List.head?_cons, List.tail_cons,
      Option.some.injEq]
    by_cases hcm : c = '-'
    · rw [if_pos hcm, if_pos hcm]
      cases u' with
      | nil =>
        simp only [List.nil_append]
        cases z with
        | nil => rfl
        | cons d z' =>
          have hd : isDig d = false := by
            rcases ws_char_cases (hz d (by simp)) with rfl | rfl | rfl | rfl <;> decide
          have hd0 : ¬ d = '0' := by
            intro hh; rw [hh] at hd; simp [isDig] at hd
          dsimp only
          rw [if_neg hd0, if_neg (by simp [hd])]
          rfl
      | cons d u2 =>
        simp only [List.cons_append]
        by_cases hd0 : d = '0'
        · rw [if_pos hd0, if_pos hd0]
          rw [matchFrac_append_ws hz]
          rfl
        · rw [if_neg hd0, if_neg hd0]
          by_cases hdd : isDig d
          · rw [if_pos hdd, if_pos hdd]
            rw [takeWhile_append_of_head_false hzt, dropWhile_append_of_head_false hzd]
            rw [matchFrac_append_ws hz]
            rfl
          · rw [if_neg hdd, if_neg hdd]
            rfl
    · rw [if_neg hcm, if_neg hcm]
      dsimp only
      by_cases hc0 : c = '0'
      · rw [if_pos hc0, if_pos hc0]
        rw [matchFrac_append_ws hz]
        rfl
      · rw [if_neg hc0, if_neg hc0]
        by_cases hcd : isDig c
        · rw [if_pos hcd, if_pos hcd]
          rw [takeWhile_append_of_head_false hzt, dropWhile_append_of_head_false hzd]
          rw [matchFrac_append_ws hz]
          rfl
        · rw [if_neg hcd, if_neg hcd]
          rfl

/-- The exponent matcher only moves characters from the rest to the
token: token and rest always concatenate back to the input. -/
theorem matchExp_decomp (tok s : List Char) :
    (matchNumber.matchExp tok s).1 ++ (matchNumber.matchExp tok s).2 = tok ++ s := by
  cases s with
  | nil => rfl
  | cons e r =>
    simp only [matchNumber.matchExp]
    by_cases he : e = 'e' ∨ e = 'E'
    · rw [if_pos he]
      by_cases hp : r.head? = some '+'
      · rw [if_pos hp]
        have hr := List.eq_cons_of_mem_head? hp
        cases htw : r.tail.takeWhile isDig with
        | nil => rfl
        | cons d ds =>
          dsimp only
          conv_rhs => rw [hr, ← List.takeWhile_append_dropWhile isDig r.tail, htw]
          simp
      · rw [if_neg hp]
        by_cases hm : r.head? = some '-'
        · rw [if_pos hm]
          have hr := List.eq_cons_of_mem_head? hm
          cases htw : r.tail.takeWhile isDig with
          | nil => rfl
          | cons d ds =>
            dsimp only
            conv_rhs => rw [hr, ← List.takeWhile_append_dropWhile isDig r.tail, htw]
            simp
        · rw [if_neg hm]
          cases htw : r.takeWhile isDig with
          | nil => rfl
          | cons d ds =>
            dsimp only
            conv_rhs => rw [← List.takeWhile_append_dropWhile isDig r, htw]
            simp
    · rw [if_neg he]

/-- The exponent matcher preserves "the token ends in a digit". -/
theorem matchExp_last (tok s : List Char)
    (h : ∃ d, tok.getLast? = some d ∧ isDig d = true) :
    ∃ d, (matchNumber.matchExp tok s).1.getLast? = some d ∧ isDig d = true := by
  cases s with
  | nil => exact h
  | cons e r =>
    simp only [matchNumber.matchExp]
    by_cases he : e = 'e' ∨ e = 'E'
    · rw [if_pos he]
      by_cases hp : r.head? = some '+'
      · rw [if_pos hp]
        cases htw : r.tail.takeWhile isDig with
        | nil => exact h
        | cons d ds =>
          dsimp only
          obtain ⟨x, hx, hmem⟩ := exists_getLast?_some d ds
          refine ⟨x, ?_, List.mem_takeWhile_imp (by rw [htw]; exact hmem)⟩
          simp only [List.cons_append, List.nil_append, List.append_assoc]
          rw [List.getLast?_append, List.getLast?_cons_cons, List.getLast?_cons_cons, hx]
          rfl
      · rw [if_neg hp]
        by_cases hm : r.head? = some '-'
        · rw [if_pos hm]
          cases htw : r.tail.takeWhile isDig with
          | nil => exact h
          | cons d ds =>
            dsimp only
            obtain ⟨x, hx, hmem⟩ := exists_getLast?_some d ds
            refine ⟨x, ?_, List.mem_takeWhile_imp (by rw [htw]; exact hmem)⟩
            simp only [List.cons_append, List.nil_append, List.append_assoc]
            rw [List.getLast?_append, List.getLast?_cons_cons, List.getLast?_cons_cons, hx]
            rfl
        · rw [if_neg hm]
          cases htw : r.takeWhile isDig with
          | nil => exact h
          | cons d ds =>
            dsimp only
            obtain ⟨x, hx, hmem⟩ := exists_getLast?_some d ds
            refine ⟨x, ?_, List.mem_takeWhile_imp (by rw [htw]; exact hmem)⟩
            simp only [List.cons_append, List.nil_append, List.append_assoc]
            rw [List.getLast?_append, List.getLast?_cons_cons, hx]
            rfl
    · rw [if_neg he]
      exact h

/-- The fraction matcher also only moves characters from rest to token. -/
theorem matchFrac_decomp (tok s : List Char) :
    (matchNumber.matchFrac tok s).1 ++ (matchNumber.matchFrac tok s).2 = tok ++ s := by
  simp only [matchNumber.matchFrac]
  by_cases hd : s.head? = some '.'
  · rw [if_pos hd]
    have hs := List.eq_cons_of_mem_head? hd
    cases htw : s.tail.takeWhile isDig with
    | nil => exact matchExp_decomp tok s
    | cons d ds =>
      rw [matchExp_decomp]
      conv_rhs => rw [hs, ← List.takeWhile_append_dropWhile isDig s.tail, htw]
      simp
  · rw [if_neg hd]
    exact matchExp_decomp tok s

/-- The fraction matcher preserves "the token ends in a digit". -/
theorem matchFrac_last (tok s : List Char)
    (h : ∃ d, tok.getLast? = some d ∧ isDig d = true) :
    ∃ d, (matchNumber.matchFrac tok s).1.getLast? = some d ∧ isDig d = true := by
  simp only [matchNumber.matchFrac]
  by_cases hd : s.head? = some '.'
  · rw [if_pos hd]
    cases htw : s.tail.takeWhile isDig with
    | nil => exact matchExp_last tok s h
    | cons d ds =>
      refine matchExp_last _ _ ?_
      obtain ⟨x, hx, hmem⟩ := exists_getLast?_some d ds
      refine ⟨x, ?_, List.mem_takeWhile_imp (by rw [htw]; exact hmem)⟩
      rw [List.getLast?_append, List.getLast?_cons_cons, hx]
      rfl
  · rw [if_neg hd]
    exact matchExp_last tok s h

/-- A token of the form `sign ++ c :: digits` with `c` a digit ends in
a digit. -/
theorem sign_tok_last (sign : List Char) (c : Char) (hc : isDig c = true)
    (ds : List Char) (hds : ∀ x ∈ ds, isDig x = true) :
    ∃ d, (sign ++ c :: ds).getLast? = some d ∧ isDig d = true := by
  cases ds with
  | nil => exact ⟨c, List.getLast?_concat _, hc⟩
  | cons d ds2 =>
    obtain ⟨x, hx, hmem⟩ := exists_getLast?_some d ds2
    refine ⟨x, ?_, hds x hmem⟩
    rw [List.getLast?_append, List.getLast?_cons_cons, hx]
    rfl

/-- Structure of a successful number match: the token and the rest
concatenate back to the input, the token ends in a digit, and the input
starts with a minus sign or a digit. -/
theorem matchNumber_struct {s tok r : List Char} (h : matchNumber s = some (tok, r)) :
    s = tok ++ r ∧ (∃ d, tok.getLast? = some d ∧ isDig d = true)
      ∧ (∃ hd t, s = hd :: t ∧ (hd = '-' ∨ isDig hd = true)) := by
  rw [matchNumber] at h
  by_cases hm : s.head? = some '-'
  · rw [if_pos hm] at h
    have hs := List.eq_cons_of_mem_head? hm
    dsimp only at h
    cases hst : s.tail with
    | nil => rw [hst] at h; cases h
    | cons c r1 =>
      rw [hst] at h
      dsimp only at h
      by_cases hc0 : c = '0'
      · rw [if_pos hc0] at h
        injection h with h
        have hdec := matchFrac_decomp (['-'] ++ ['0']) r1
        rw [h] at hdec
        have hlst := matchFrac_last (['-'] ++ ['0']) r1 ⟨'0', rfl, by decide⟩
        rw [h] at hlst
        subst hc0
        refine ⟨?_, hlst, '-', s.tail, hs, Or.inl rfl⟩
        rw [hs, hst, hdec]
        rfl
      · rw [if_neg hc0] at h
        by_cases hcd : isDig c
        · rw [if_pos hcd] at h
          injection h with h
          have hdec := matchFrac_decomp (['-'] ++ c :: r1.takeWhile isDig) (r1.dropWhile isDig)
          rw [h] at hdec
          have hlst := matchFrac_last (['-'] ++ c :: r1.takeWhile isDig) (r1.dropWhile isDig)
            (sign_tok_last ['-'] c hcd _ (fun x hx => List.mem_takeWhile_imp hx))
          rw [h] at hlst
          refine ⟨?_, hlst, '-', s.tail, hs, Or.inl rfl⟩
          rw [hs, hst, hdec]
          simp [List.append_assoc]
        · rw [if_neg hcd] at h; cases h
  · rw [if_neg hm] at h
    dsimp only at h
    cases hsc : s with
    | nil => rw [hsc] at h; cases h
    | cons c r1 =>
      rw [hsc] at h
      dsimp only at h
      by_cases hc0 : c = '0'
      · rw [if_pos hc0] at h
        injection h with h
        have hdec := matchFrac_decomp ([] ++ ['0']) r1
        rw [h] at hdec
        have hlst := matchFrac_last ([] ++ ['0']) r1 ⟨'0', by rfl, by decide⟩
        rw [h] at hlst
        subst hc0
        refine ⟨?_, hlst, '0', r1, rfl, Or.inr (by decide)⟩
        rw [hdec]
        rfl
      · rw [if_neg hc0] at h
        by_cases hcd : isDig c
        · rw [if_pos hcd] at h
          injection h with h
          have hdec := matchFrac_decomp ([] ++ c :: r1.takeWhile isDig) (r1.dropWhile isDig)
          rw [h] at hdec
          have hlst := matchFrac_last ([] ++ c :: r1.takeWhile isDig) (r1.dropWhile isDig)
            (sign_tok_last [] c hcd _ (fun x hx => List.mem_takeWhile_imp hx))
          rw [h] at hlst
          refine ⟨?_, hlst, c, r1, rfl, Or.inr hcd⟩
          rw [hdec]
          simp
        · rw [if_neg hcd] at h; cases h

/-- The Python-whitespace characters, enumerated. -/
theorem pyWs_char_cases {c : Char} (h : pyWs c = true) :
    c = ' ' ∨ c = '\t' ∨ c = '\n' ∨ c = '\r' ∨ c = '\x0b' ∨ c = '\x0c' := by
  simpa [pyWs, or_assoc] using h

/-- A digit is not Python whitespace. -/
theorem isDig_pyWs_false {d : Char} (h : isDig d = true) : pyWs d = false := by
  cases hpw : pyWs d
  · rfl
  · rcases pyWs_char_cases hpw with rfl | rfl | rfl | rfl | rfl | rfl <;>
      exact absurd h (by decide)

/-- JSON whitespace is Python whitespace. -/
theorem jsonWs_pyWs {c : Char} (h : jsonWs c = true) : pyWs c = true := by
  rcases ws_char_cases h with rfl | rfl | rfl | rfl <;> decide

/-- `getLast?` of an appended nonempty list. -/
theorem getLast?_append_some {α : Type} {l2 : List α} {x : α} (l1 : List α)
    (h : l2.getLast? = some x) : (l1 ++ l2).getLast? = some x := by
  rw [List.getLast?_append, h]
  rfl

/-- General unfolding of a `value`-mode parse at positive fuel. -/
theorem parseCore_value_eq (f : Nat) (st : Bool) (s : List Char) :
    parseCore (f + 1) st PMode.value s =
      (match s with
       | '"' :: rest => (parseStringBody st rest).map (fun p => (Json.str p.1, p.2))
       | '{' :: rest =>
         match rest.dropWhile jsonWs with
         | '}' :: r => some (Json.obj [], r)
         | s2 => parseCore f st (PMode.members []) s2
       | '[' :: rest =>
         match rest.dropWhile jsonWs with
         | ']' :: r => some (Json.arr [], r)
         | s2 => parseCore f st (PMode.items []) s2
       | 'n' :: 'u' :: 'l' :: 'l' :: rest => some (Json.null, rest)
       | 't' :: 'r' :: 'u' :: 'e' :: rest => some (Json.bool true, rest)
       | 'f' :: 'a' :: 'l' :: 's' :: 'e' :: rest => some (Json.bool false, rest)
       | _ => parseNumConst s) := rfl

set_option maxHeartbeats 2000000 in
/-- Structure of a successful `parseNumConst`: consumed prefix, its
non-whitespace last character, and the non-whitespace head. -/
theorem parseNumConst_struct {s : List Char} {v : Json} {r : List Char}
    (h : parseNumConst s = some (v, r)) :
    (∃ c ch, s = c ++ r ∧ c.getLast? = some ch ∧ pyWs ch = false)
    ∧ (∃ hd t, s = hd :: t ∧ pyWs hd = false ∧ hd ≠ '`' ∧ jsonWs hd = false) := by
  rw [parseNumConst.eq_def] at h
  cases hmn : matchNumber s with
  | some p =>
    obtain ⟨tok, r0⟩ := p
    rw [hmn] at h
    dsimp only at h
    injection h with h
    cases h
    obtain ⟨hdec, ⟨d, hd, hdig⟩, hd2, t2, hs2, hhd⟩ := matchNumber_struct hmn
    refine ⟨⟨tok, d, hdec, hd, isDig_pyWs_false hdig⟩, hd2, t2, hs2, ?_, ?_, ?_⟩
    · rcases hhd with rfl | hdg
      · decide
      · exact isDig_pyWs_false hdg
    · rcases hhd with rfl | hdg
      · decide
      · intro hbe; subst hbe; exact absurd hdg (by decide)
    · rcases hhd with rfl | hdg
      · decide
      · have h1 := isDig_pyWs_false hdg
        cases hjw : jsonWs hd2
        · rfl
        · rw [jsonWs_pyWs hjw] at h1
          cases h1
  | none =>
    rw [hmn] at h
    dsimp only at h
    split at h
    · cases h
      exact ⟨⟨['N', 'a', 'N'], 'N', rfl, rfl, by decide⟩,
        'N', _, rfl, by decide, by decide, by decide⟩
    · cases h
      exact ⟨⟨['I', 'n', 'f', 'i', 'n', 'i', 't', 'y'], 'y', rfl, rfl, by decide⟩,
        'I', _, rfl, by decide, by decide, by decide⟩
    · cases h
      exact ⟨⟨['-', 'I', 'n', 'f', 'i', 'n', 'i', 't', 'y'], 'y', rfl, rfl, by decide⟩,
        '-', _, rfl, by decide, by decide, by decide⟩
    · cases h

/-- A list with a last element is nonempty, append form. -/
theorem ne_nil_of_getLast?_some {α : Type} {l : List α} {x : α}
    (h : l.getLast? = some x) : l ≠ [] := by
  intro he
  rw [he] at h
  cases h

set_option maxHeartbeats 4000000 in
/-- Structure of every successful `parseCore` run: the rest is what
remains after a nonempty consumed prefix whose last character is not
whitespace. -/
theorem parseCore_struct :
    ∀ f st m s v r, parseCore f st m s = some (v, r) →
      ∃ c ch, s = c ++ r ∧ c.getLast? = some ch ∧ pyWs ch = false := by
  intro f
  induction f with
  | zero => intro st m s v r h; rw [parseCore_zero] at h; cases h
  | succ f ih =>
    intro st m s v r h
    cases m with
    | value =>
      rw [parseCore_value_eq] at h
      split at h
      · rename_i rest
        rw [Option.map_eq_some'] at h
        obtain ⟨⟨k1, r1⟩, hin, hmap⟩ := h
        cases hmap
        obtain ⟨cS, hcS, hlastS, -⟩ := parseStringBody_struct st rest k1 r1 hin
        exact ⟨'"' :: cS, '"', by simp [hcS], getLast?_cons_some hlastS, by decide⟩
      · rename_i rest
        split at h
        · rename_i r2 heq
          cases h
          refine ⟨('{' :: rest.takeWhile jsonWs) ++ ['}'], '}', ?_, List.getLast?_concat _,
            by decide⟩
          conv_lhs => rw [show rest = List.takeWhile jsonWs rest ++ ('}' :: r) from by
            rw [← heq, List.takeWhile_append_dropWhile]]
          simp
        · obtain ⟨cm, chm, hdm, hlm, hwm⟩ := ih _ _ _ _ _ h
          refine ⟨('{' :: rest.takeWhile jsonWs) ++ cm, chm, ?_,
            getLast?_append_some _ hlm, hwm⟩
          conv_lhs => rw [show rest = List.takeWhile jsonWs rest ++ rest.dropWhile jsonWs
            from (List.takeWhile_append_dropWhile _ _).symm, hdm]
          simp
      · rename_i rest
        split at h
        · rename_i r2 heq
          cases h
          refine ⟨('[' :: rest.takeWhile jsonWs) ++ [']'], ']', ?_, List.getLast?_concat _,
            by decide⟩
          conv_lhs => rw [show rest = List.takeWhile jsonWs rest ++ (']' :: r) from by
            rw [← heq, List.takeWhile_append_dropWhile]]
          simp
        · obtain ⟨cm, chm, hdm, hlm, hwm⟩ := ih _ _ _ _ _ h
          refine ⟨('[' :: rest.takeWhile jsonWs) ++ cm, chm, ?_,
            getLast?_append_some _ hlm, hwm⟩
          conv_lhs => rw [show rest = List.takeWhile jsonWs rest ++ rest.dropWhile jsonWs
            from (List.takeWhile_append_dropWhile _ _).symm, hdm]
          simp
      · cases h
        exact ⟨['n', 'u', 'l', 'l'], 'l', rfl, rfl, by decide⟩
      · cases h
        exact ⟨['t', 'r', 'u', 'e'], 'e', rfl, rfl, by decide⟩
      · cases h
        exact ⟨['f', 'a', 'l', 's', 'e'], 'e', rfl, rfl, by decide⟩
      · exact (parseNumConst_struct h).1
    | items acc =>
      rw [parseCore_items_eq] at h
      cases hv : parseCore f st PMode.value s with
      | none => rw [hv] at h; cases h
      | some p =>
        obtain ⟨v1, R1⟩ := p
        rw [hv] at h
        dsimp only at h
        obtain ⟨c1, ch1, hd1, hl1, hw1⟩ := ih _ _ _ _ _ hv
        split at h
        · rename_i r2 heq
          obtain ⟨cm, chm, hdm, hlm, hwm⟩ := ih _ _ _ _ _ h
          refine ⟨c1 ++ R1.takeWhile jsonWs ++ [','] ++ r2.takeWhile jsonWs ++ cm, chm, ?_,
            getLast?_append_some _ hlm, hwm⟩
          rw [hd1]
          conv_lhs => rw [show R1 = List.takeWhile jsonWs R1 ++ (',' :: r2) from by
            rw [← heq, List.takeWhile_append_dropWhile]]
          conv_lhs => rw [show r2 = List.takeWhile jsonWs r2 ++ r2.dropWhile jsonWs
            from (List.takeWhile_append_dropWhile _ _).symm, hdm]
          simp
        · rename_i r2 heq
          cases h
          refine ⟨(c1 ++ R1.takeWhile jsonWs) ++ [']'], ']', ?_, List.getLast?_concat _,
            by decide⟩
          rw [hd1]
          conv_lhs => rw [show R1 = List.takeWhile jsonWs R1 ++ (']' :: r) from by
            rw [← heq, List.takeWhile_append_dropWhile]]
          simp
        · cases h
    | members acc =>
      rw [parseCore_members_eq] at h
      split at h
      · rename_i rest
        split at h
        · cases h
        · rename_i k r1 heqSB
          split at h
          · rename_i r2 heqC
            split at h
            · cases h
            · rename_i v1 r3 heqV
              obtain ⟨cS, hcS, hlastS, -⟩ := parseStringBody_struct st rest k r1 heqSB
              obtain ⟨cv, chv, hdv, hlv, hwv⟩ := ih _ _ _ _ _ heqV
              split at h
              · rename_i r4 heqE
                cases h
                refine ⟨('"' :: cS ++ r1.takeWhile jsonWs ++ [':'] ++ r2.takeWhile jsonWs ++
                  cv ++ r3.takeWhile jsonWs) ++ ['}'], '}', ?_, List.getLast?_concat _,
                  by decide⟩
                conv_lhs => rw [hcS]
                conv_lhs => rw [show r1 = List.takeWhile jsonWs r1 ++ (':' :: r2) from by
                  rw [← heqC, List.takeWhile_append_dropWhile]]
                conv_lhs => rw [show r2 = List.takeWhile jsonWs r2 ++ r2.dropWhile jsonWs
                  from (List.takeWhile_append_dropWhile _ _).symm, hdv]
                conv_lhs => rw [show r3 = List.takeWhile jsonWs r3 ++ ('}' :: r) from by
                  rw [← heqE, List.takeWhile_append_dropWhile]]
                simp
              · rename_i r4 heqE
                obtain ⟨cm, chm, hdm, hlm, hwm⟩ := ih _ _ _ _ _ h
                refine ⟨'"' :: cS ++ r1.takeWhile jsonWs ++ [':'] ++ r2.takeWhile jsonWs ++
                  cv ++ r3.takeWhile jsonWs ++ [','] ++ r4.takeWhile jsonWs ++ cm, chm, ?_,
                  getLast?_append_some _ hlm, hwm⟩
                conv_lhs => rw [hcS]
                conv_lhs => rw [show r1 = List.takeWhile jsonWs r1 ++ (':' :: r2) from by
                  rw [← heqC, List.takeWhile_append_dropWhile]]
                conv_lhs => rw [show r2 = List.takeWhile jsonWs r2 ++ r2.dropWhile jsonWs
                  from (List.takeWhile_append_dropWhile _ _).symm, hdv]
                conv_lhs => rw [show r3 = List.takeWhile jsonWs r3 ++ (',' :: r4) from by
                  rw [← heqE, List.takeWhile_append_dropWhile]]
                conv_lhs => rw [show r4 = List.takeWhile jsonWs r4 ++ r4.dropWhile jsonWs
                  from (List.takeWhile_append_dropWhile _ _).symm, hdm]
                simp
              · cases h
          · cases h
      · cases h

set_option maxHeartbeats 1000000 in
/-- A successful value parse starts with a non-whitespace character
that is not a backtick. -/
theorem parseCore_value_head {f : Nat} {st : Bool} {s : List Char} {v : Json}
    {r : List Char} (h : parseCore f st PMode.value s = some (v, r)) :
    ∃ hd t, s = hd :: t ∧ pyWs hd = false ∧ hd ≠ '`' ∧ jsonWs hd = false := by
  cases f with
  | zero => rw [parseCore_zero] at h; cases h
  | succ f =>
    rw [parseCore_value_eq] at h
    split at h
    · exact ⟨'"', _, rfl, by decide, by decide, by decide⟩
    · exact ⟨'{', _, rfl, by decide, by decide, by decide⟩
    · exact ⟨'[', _, rfl, by decide, by decide, by decide⟩
    · exact ⟨'n', _, rfl, by decide, by decide, by decide⟩
    · exact ⟨'t', _, rfl, by decide, by decide, by decide⟩
    · exact ⟨'f', _, rfl, by decide, by decide, by decide⟩
    · exact (parseNumConst_struct h).2

/-- A successful parse consumes at least one character. -/
theorem parseCore_rest_lt {f : Nat} {st : Bool} {m : PMode} {s : List Char} {v : Json}
    {r : List Char} (h : parseCore f st m s = some (v, r)) : r.length < s.length := by
  obtain ⟨c, ch, hd, hl, -⟩ := parseCore_struct f st m s v r h
  have hc := ne_nil_of_getLast?_some hl
  have : 0 < c.length := List.length_pos.mpr hc
  rw [hd]
  simp
  omega

/-- Unfolding: a value starting with a quote. -/
theorem parseCore_value_quote (f : Nat) (st : Bool) (rest : List Char) :
    parseCore (f + 1) st PMode.value ('"' :: rest) =
      (parseStringBody st rest).map (fun p => (Json.str p.1, p.2)) := rfl

/-- Unfolding: the `null` literal. -/
theorem parseCore_value_null (f : Nat) (st : Bool) (rest : List Char) :
    parseCore (f + 1) st PMode.value ('n' :: 'u' :: 'l' :: 'l' :: rest) =
      some (Json.null, rest) := rfl

/-- Unfolding: the `true` literal. -/
theorem parseCore_value_true (f : Nat) (st : Bool) (rest : List Char) :
    parseCore (f + 1) st PMode.value ('t' :: 'r' :: 'u' :: 'e' :: rest) =
      some (Json.bool true, rest) := rfl

/-- Unfolding: the `false` literal. -/
theorem parseCore_value_false (f : Nat) (st : Bool) (rest : List Char) :
    parseCore (f + 1) st PMode.value ('f' :: 'a' :: 'l' :: 's' :: 'e' :: rest) =
      some (Json.bool false, rest) := rfl

/-- `parseNumConst` on the `NaN` constant once the regex fails. -/
theorem parseNumConst_NaN (r : List Char) (hmn : matchNumber ('N' :: 'a' :: 'N' :: r) = none) :
    parseNumConst ('N' :: 'a' :: 'N' :: r) = some (Json.nan, r) := by
  rw [parseNumConst.eq_def, hmn]
  rfl

/-- `parseNumConst` on the `Infinity` constant once the regex fails. -/
theorem parseNumConst_Inf (r : List Char)
    (hmn : matchNumber ('I' :: 'n' :: 'f' :: 'i' :: 'n' :: 'i' :: 't' :: 'y' :: r) = none) :
    parseNumConst ('I' :: 'n' :: 'f' :: 'i' :: 'n' :: 'i' :: 't' :: 'y' :: r) =
      some (Json.inf, r) := by
  rw [parseNumConst.eq_def, hmn]
  rfl

/-- `parseNumConst` on the `-Infinity` constant once the regex fails. -/
theorem parseNumConst_negInf (r : List Char)
    (hmn : matchNumber ('-' :: 'I' :: 'n' :: 'f' :: 'i' :: 'n' :: 'i' :: 't' :: 'y' :: r)
      = none) :
    parseNumConst ('-' :: 'I' :: 'n' :: 'f' :: 'i' :: 'n' :: 'i' :: 't' :: 'y' :: r) =
      some (Json.neginf, r) := by
  rw [parseNumConst.eq_def, hmn]
  rfl

/-- The remainder of a successful parse is a suffix of the input. -/
theorem parseCore_rest_suffix {f : Nat} {st : Bool} {m : PMode} {s : List Char} {v : Json}
    {r : List Char} (h : parseCore f st m s = some (v, r)) : r <:+ s := by
  obtain ⟨c, ch, hd, -, -⟩ := parseCore_struct f st m s v r h
  exact ⟨c, hd.symm⟩

/-- Dropping whitespace from `w ++ z` when `w` is all whitespace and so is `z`. -/
theorem dropWhile_ws_append_nil {z : List Char} (hz : ∀ c ∈ z, jsonWs c = true)
    {w : List Char} (hw : w.dropWhile jsonWs = []) :
    (w ++ z).dropWhile jsonWs = [] := by
  rw [List.dropWhile_append, hw]
  simpa using List.dropWhile_eq_nil_iff.mpr hz

/-- Dropping whitespace from `w ++ z` when `w` retains a non-whitespace head. -/
theorem dropWhile_ws_append_cons {z w : List Char} {d : Char} {t : List Char}
    (hw : w.dropWhile jsonWs = d :: t) :
    (w ++ z).dropWhile jsonWs = d :: (t ++ z) := by
  rw [List.dropWhile_append, hw]
  simp

/-- Truncation for the number/constant scanner: a trailing all-whitespace
suffix that survives into the remainder can be removed from both. -/
theorem parseNumConst_trunc {z : List Char} (hz : ∀ c ∈ z, jsonWs c = true)
    {w : List Char} {v : Json} {r : List Char}
    (h : parseNumConst (w ++ z) = some (v, r ++ z)) :
    parseNumConst w = some (v, r) := by
  rw [parseNumConst.eq_def] at h
  rw [matchNumber_append_ws hz w] at h
  cases hmw : matchNumber w with
  | some p =>
    obtain ⟨tok, r0⟩ := p
    rw [hmw, Option.map_some'] at h
    dsimp only at h
    injection h with h
    injection h with h1 h2
    have hr := List.append_cancel_right h2
    rw [parseNumConst.eq_def, hmw]
    dsimp only
    rw [h1, hr]
  | none =>
    rw [hmw, Option.map_none'] at h
    dsimp only at h
    split at h
    · rename_i rest heq
      injection h with h
      injection h with h1 h2
      subst h2
      have hw2 : w = 'N' :: 'a' :: 'N' :: r :=
        List.append_cancel_right (by rw [heq]; rfl)
      rw [hw2, ← h1]
      exact parseNumConst_NaN r (hw2 ▸ hmw)
    · rename_i rest heq
      injection h with h
      injection h with h1 h2
      subst h2
      have hw2 : w = 'I' :: 'n' :: 'f' :: 'i' :: 'n' :: 'i' :: 't' :: 'y' :: r :=
        List.append_cancel_right (by rw [heq]; rfl)
      rw [hw2, ← h1]
      exact parseNumConst_Inf r (hw2 ▸ hmw)
    · rename_i rest heq
      injection h with h
      injection h with h1 h2
      subst h2
      have hw2 : w = '-' :: 'I' :: 'n' :: 'f' :: 'i' :: 'n' :: 'i' :: 't' :: 'y' :: r :=
        List.append_cancel_right (by rw [heq]; rfl)
      rw [hw2, ← h1]
      exact parseNumConst_negInf r (hw2 ▸ hmw)
    · cases h

set_option maxHeartbeats 4000000 in
/-- Truncation: an all-whitespace suffix that survives a successful parse
untouched can be removed from input and remainder alike. -/
theorem parseCore_trunc {z : List Char} (hz : ∀ c ∈ z, jsonWs c = true) :
    ∀ f st m w v r, parseCore f st m (w ++ z) = some (v, r ++ z) →
      parseCore f st m w = some (v, r) := by
  intro f
  induction f with
  | zero => intro st m w v r h; rw [parseCore_zero] at h; cases h
  | succ f ih =>
    intro st m w v r h
    cases m with
    | value =>
      rw [parseCore_value_eq] at h
      split at h
      · rename_i rest heq
        rw [Option.map_eq_some'] at h
        obtain ⟨⟨k1, r1⟩, hin, hmap⟩ := h
        injection hmap with hmap1 hmap2
        subst hmap2
        obtain ⟨cS, hcS, -, hloc⟩ := parseStringBody_struct st rest k1 (r ++ z) hin
        have hw2 : w = '"' :: (cS ++ r) :=
          List.append_cancel_right (by rw [heq, hcS]; simp)
        rw [hw2, parseCore_value_quote, hloc r, Option.map_some', hmap1]
      · rename_i rest heq
        cases w with
        | nil =>
          rw [List.nil_append] at heq
          have hmem : '{' ∈ z := by rw [heq]; exact List.mem_cons_self _ _
          exact absurd (hz _ hmem) (by decide)
        | cons a w2 =>
          rw [List.cons_append] at heq
          injection heq with ha ht
          subst ha
          subst ht
          cases hdw : w2.dropWhile jsonWs with
          | nil =>
            rw [dropWhile_ws_append_nil hz hdw] at h
            split at h
            · rename_i r2 heq2
              cases heq2
            · have hlt := parseCore_rest_lt h
              simp at hlt
          | cons d t =>
            rw [dropWhile_ws_append_cons hdw] at h
            split at h
            · rename_i r2 heq2
              injection heq2 with hq1 hq2
              subst hq1
              subst hq2
              injection h with h0
              injection h0 with h1 h2
              have ht2 := List.append_cancel_right h2
              subst ht2
              rw [parseCore_value_lbrace, hdw]
              split
              · rename_i r2 heq3
                injection heq3 with hq3 hq4
                subst hq4
                rw [h1]
              · rename_i hne
                exact absurd rfl (hne t)
            · rename_i hne
              have hd2 : d ≠ '}' := fun hdq => hne (t ++ z) (by rw [hdq])
              have hih := ih st (PMode.members []) (d :: t) v r
                (by rw [List.cons_append]; exact h)
              rw [parseCore_value_lbrace, hdw]
              split
              · rename_i r2 heq3
                injection heq3 with hq3 hq4
                exact absurd hq3 hd2
              · exact hih
      · rename_i rest heq
        cases w with
        | nil =>
          rw [List.nil_append] at heq
          have hmem : '[' ∈ z := by rw [heq]; exact List.mem_cons_self _ _
          exact absurd (hz _ hmem) (by decide)
        | cons a w2 =>
          rw [List.cons_append] at heq
          injection heq with ha ht
          subst ha
          subst ht
          cases hdw : w2.dropWhile jsonWs with
          | nil =>
            rw [dropWhile_ws_append_nil hz hdw] at h
            split at h
            · rename_i r2 heq2
              cases heq2
            · have hlt := parseCore_rest_lt h
              simp at hlt
          | cons d t =>
            rw [dropWhile_ws_append_cons hdw] at h
            split at h
            · rename_i r2 heq2
              injection heq2 with hq1 hq2
              subst hq1
              subst hq2
              injection h with h0
              injection h0 with h1 h2
              have ht2 := List.append_cancel_right h2
              subst ht2
              rw [parseCore_value_lbrack, hdw]
              split
              · rename_i r2 heq3
                injection heq3 with hq3 hq4
                subst hq4
                rw [h1]
              · rename_i hne
                exact absurd rfl (hne t)
            · rename_i hne
              have hd2 : d ≠ ']' := fun hdq => hne (t ++ z) (by rw [hdq])
              have hih := ih st (PMode.items []) (d :: t) v r
                (by rw [List.cons_append]; exact h)
              rw [parseCore_value_lbrack, hdw]
              split
              · rename_i r2 heq3
                injection heq3 with hq3 hq4
                exact absurd hq3 hd2
              · exact hih
      · rename_i rest heq
        injection h with h0
        injection h0 with h1 h2
        subst h2
        have hw2 : w = 'n' :: 'u' :: 'l' :: 'l' :: r :=
          List.append_cancel_right (by rw [heq]; rfl)
        rw [hw2, ← h1]
        exact parseCore_value_null f st r
      · rename_i rest heq
        injection h with h0
        injection h0 with h1 h2
        subst h2
        have hw2 : w = 't' :: 'r' :: 'u' :: 'e' :: r :=
          List.append_cancel_right (by rw [heq]; rfl)
        rw [hw2, ← h1]
        exact parseCore_value_true f st r
      · rename_i rest heq
        injection h with h0
        injection h0 with h1 h2
        subst h2
        have hw2 : w = 'f' :: 'a' :: 'l' :: 's' :: 'e' :: r :=
          List.append_cancel_right (by rw [heq]; rfl)
        rw [hw2, ← h1]
        exact parseCore_value_false f st r
      · rename_i hn1 hn2 hn3 hn4 hn5 hn6
        have hnum := parseNumConst_trunc hz h
        rw [parseCore_value_eq]
        split
        · rename_i rest2
          exact (hn1 (rest2 ++ z) rfl).elim
        · rename_i rest2
          exact (hn2 (rest2 ++ z) rfl).elim
        · rename_i rest2
          exact (hn3 (rest2 ++ z) rfl).elim
        · rename_i rest2
          exact (hn4 (rest2 ++ z) rfl).elim
        · rename_i rest2
          exact (hn5 (rest2 ++ z) rfl).elim
        · rename_i rest2
          exact (hn6 (rest2 ++ z) rfl).elim
        · exact hnum
    | items acc =>
      rw [parseCore_items_eq] at h
      cases hv : parseCore f st PMode.value (w ++ z) with
      | none => rw [hv] at h; cases h
      | some p =>
        obtain ⟨v1, R1⟩ := p
        rw [hv] at h
        dsimp only at h
        split at h
        · rename_i r2 heq
          have hzR : z <:+ R1 :=
            ((((List.suffix_append r z).trans (parseCore_rest_suffix h)).trans
              (List.dropWhile_suffix _)).trans ⟨[','], heq.symm⟩).trans
              (List.dropWhile_suffix _)
          obtain ⟨mid, hmid⟩ := hzR
          have hvm : parseCore f st PMode.value w = some (v1, mid) :=
            ih st PMode.value w v1 mid (by rw [hmid]; exact hv)
          rw [← hmid] at heq
          cases hdw : mid.dropWhile jsonWs with
          | nil => rw [dropWhile_ws_append_nil hz hdw] at heq; cases heq
          | cons d t =>
            rw [dropWhile_ws_append_cons hdw] at heq
            injection heq with hd2 ht2
            subst hd2
            subst ht2
            cases hdt : t.dropWhile jsonWs with
            | nil =>
              rw [dropWhile_ws_append_nil hz hdt] at h
              have hlt := parseCore_rest_lt h
              simp at hlt
            | cons e u =>
              rw [dropWhile_ws_append_cons hdt] at h
              have hih := ih st (PMode.items (acc ++ [v1])) (e :: u) v r
                (by rw [List.cons_append]; exact h)
              rw [parseCore_items_eq, hvm]
              dsimp only
              rw [hdw]
              split
              · rename_i r2 heq2
                injection heq2 with heq2a heq2b
                subst heq2b
                rw [hdt]
                exact hih
              · rename_i r2 heq2
                injection heq2 with heq2a
                exact absurd heq2a (by decide)
              · rename_i hne1 hne2
                exact absurd rfl (hne1 t)
        · rename_i r2 heq
          injection h with h0
          injection h0 with h1 h2
          subst h2
          have hzR : z <:+ R1 :=
            (((List.suffix_append r z).trans ⟨[']'], heq.symm⟩).trans
              (List.dropWhile_suffix _))
          obtain ⟨mid, hmid⟩ := hzR
          have hvm : parseCore f st PMode.value w = some (v1, mid) :=
            ih st PMode.value w v1 mid (by rw [hmid]; exact hv)
          rw [← hmid] at heq
          cases hdw : mid.dropWhile jsonWs with
          | nil => rw [dropWhile_ws_append_nil hz hdw] at heq; cases heq
          | cons d t =>
            rw [dropWhile_ws_append_cons hdw] at heq
            injection heq with hd2 ht2
            subst hd2
            have ht3 := List.append_cancel_right ht2
            subst ht3
            rw [parseCore_items_eq, hvm]
            dsimp only
            rw [hdw]
            split
            · rename_i r2 heq2
              injection heq2 with heq2a
              exact absurd heq2a (by decide)
            · rename_i r2 heq2
              injection heq2 with heq2a heq2b
              subst heq2b
              rw [h1]
            · rename_i hne1 hne2
              exact absurd rfl (hne2 t)
        · cases h
    | members acc =>
      rw [parseCore_members_eq] at h
      split at h
      · rename_i rest heq
        split at h
        · cases h
        · rename_i k r1 heqSB
          split at h
          · rename_i r2 heqC
            split at h
            · cases h
            · rename_i v1 r3 heqV
              split at h
              · rename_i r4 heqE
                injection h with h0
                injection h0 with h1 h2
                subst h2
                obtain ⟨cS, hcS, -, hloc⟩ := parseStringBody_struct st rest k r1 heqSB
                have hz3 : z <:+ r3 :=
                  ((List.suffix_append r z).trans ⟨['}'], heqE.symm⟩).trans
                    (List.dropWhile_suffix _)
                have hz1 : z <:+ r1 :=
                  ((((hz3.trans (parseCore_rest_suffix heqV)).trans
                    (List.dropWhile_suffix _)).trans ⟨[':'], heqC.symm⟩).trans
                    (List.dropWhile_suffix _))
                obtain ⟨mid3, hmid3⟩ := hz3
                obtain ⟨mid1, hmid1⟩ := hz1
                have hw2 : w = '"' :: (cS ++ mid1) :=
                  List.append_cancel_right (by rw [heq, hcS, ← hmid1]; simp)
                rw [← hmid1] at heqC
                rw [← hmid3] at heqE heqV
                cases hdw1 : mid1.dropWhile jsonWs with
                | nil => rw [dropWhile_ws_append_nil hz hdw1] at heqC; cases heqC
                | cons d1 t1 =>
                  rw [dropWhile_ws_append_cons hdw1] at heqC
                  injection heqC with hC1 hC2
                  subst hC1
                  subst hC2
                  cases hdt1 : t1.dropWhile jsonWs with
                  | nil =>
                    rw [dropWhile_ws_append_nil hz hdt1] at heqV
                    have hlt := parseCore_rest_lt heqV
                    simp at hlt
                  | cons e1 u1 =>
                    rw [dropWhile_ws_append_cons hdt1] at heqV
                    have hvm := ih st PMode.value (e1 :: u1) v1 mid3
                      (by rw [List.cons_append]; exact heqV)
                    cases hdw3 : mid3.dropWhile jsonWs with
                    | nil => rw [dropWhile_ws_append_nil hz hdw3] at heqE; cases heqE
                    | cons d3 t3 =>
                      rw [dropWhile_ws_append_cons hdw3] at heqE
                      injection heqE with hE1 hE2
                      subst hE1
                      have hE3 := List.append_cancel_right hE2
                      subst hE3
                      rw [hw2, parseCore_members_eq]
                      split
                      · rename_i rest2 heq2
                        injection heq2 with heq2a heq2b
                        subst heq2b
                        rw [hloc mid1]
                        dsimp only
                        rw [hdw1]
                        split
                        · rename_i r2 heq3
                          injection heq3 with heq3a heq3b
                          subst heq3b
                          rw [hdt1, hvm]
                          dsimp only
                          rw [hdw3]
                          split
                          · rename_i r4 heq4
                            injection heq4 with heq4a heq4b
                            subst heq4b
                            rw [h1]
                          · rename_i r4 heq4
                            injection heq4 with heq4a
                            exact absurd heq4a (by decide)
                          · rename_i hne1 hne2
                            exact absurd rfl (hne1 t3)
                        · rename_i hne1
                          exact absurd rfl (hne1 t1)
                      · rename_i hne1
                        exact absurd rfl (hne1 (cS ++ mid1))
              · rename_i r4 heqE
                obtain ⟨cS, hcS, -, hloc⟩ := parseStringBody_struct st rest k r1 heqSB
                have hz4 : z <:+ r4 :=
                  (((List.suffix_append r z).trans (parseCore_rest_suffix h)).trans
                    (List.dropWhile_suffix _))
                have hz3 : z <:+ r3 :=
                  ((hz4.trans ⟨[','], heqE.symm⟩).trans (List.dropWhile_suffix _))
                have hz1 : z <:+ r1 :=
                  ((((hz3.trans (parseCore_rest_suffix heqV)).trans
                    (List.dropWhile_suffix _)).trans ⟨[':'], heqC.symm⟩).trans
                    (List.dropWhile_suffix _))
                obtain ⟨mid4, hmid4⟩ := hz4
                obtain ⟨mid3, hmid3⟩ := hz3
                obtain ⟨mid1, hmid1⟩ := hz1
                have hw2 : w = '"' :: (cS ++ mid1) :=
                  List.append_cancel_right (by rw [heq, hcS, ← hmid1]; simp)
                rw [← hmid1] at heqC
                rw [← hmid3] at heqE heqV
                rw [← hmid4] at heqE h
                cases hdw1 : mid1.dropWhile jsonWs with
                | nil => rw [dropWhile_ws_append_nil hz hdw1] at heqC; cases heqC
                | cons d1 t1 =>
                  rw [dropWhile_ws_append_cons hdw1] at heqC
                  injection heqC with hC1 hC2
                  subst hC1
                  subst hC2
                  cases hdt1 : t1.dropWhile jsonWs with
                  | nil =>
                    rw [dropWhile_ws_append_nil hz hdt1] at heqV
                    have hlt := parseCore_rest_lt heqV
                    simp at hlt
                  | cons e1 u1 =>
                    rw [dropWhile_ws_append_cons hdt1] at heqV
                    have hvm := ih st PMode.value (e1 :: u1) v1 mid3
                      (by rw [List.cons_append]; exact heqV)
                    cases hdw3 : mid3.dropWhile jsonWs with
                    | nil => rw [dropWhile_ws_append_nil hz hdw3] at heqE; cases heqE
                    | cons d3 t3 =>
                      rw [dropWhile_ws_append_cons hdw3] at heqE
                      injection heqE with hE1 hE2
                      subst hE1
                      have hE3 := List.append_cancel_right hE2
                      rw [← hE3] at h
                      cases hdt3 : t3.dropWhile jsonWs with
                      | nil =>
                        rw [dropWhile_ws_append_nil hz hdt3] at h
                        have hlt := parseCore_rest_lt h
                        simp at hlt
                      | cons e3 u3 =>
                        rw [dropWhile_ws_append_cons hdt3] at h
                        have hih := ih st (PMode.members (objUpdate acc k v1))
                          (e3 :: u3) v r (by rw [List.cons_append]; exact h)
                        rw [hw2, parseCore_members_eq]
                        split
                        · rename_i rest2 heq2
                          injection heq2 with heq2a heq2b
                          subst heq2b
                          rw [hloc mid1]
                          dsimp only
                          rw [hdw1]
                          split
                          · rename_i r2 heq3
                            injection heq3 with heq3a heq3b
                            subst heq3b
                            rw [hdt1, hvm]
                            dsimp only
                            rw [hdw3]
                            split
                            · rename_i r4 heq4
                              injection heq4 with heq4a
                              exact absurd heq4a (by decide)
                            · rename_i r4 heq4
                              injection heq4 with heq4a heq4b
                              subst heq4b
                              rw [hdt3]
                              exact hih
                            · rename_i hne1 hne2
                              exact absurd rfl (hne2 t3)
                          · rename_i hne1
                            exact absurd rfl (hne1 t1)
                        · rename_i hne1
                          exact absurd rfl (hne1 (cS ++ mid1))
              · cases h
          · cases h
      · cases h

/-- Fuel bound that makes `parseCore` succeed whenever any fuel does. -/
def pboundFuel (m : PMode) (s : List Char) : Nat :=
  match m with
  | PMode.value => 2 * s.length + 1
  | _ => 2 * s.length + 2

set_option maxHeartbeats 4000000 in
/-- Fuel sufficiency: a parse that succeeds at some fuel succeeds at any
fuel of at least `pboundFuel`. -/
theorem parseCore_fuel :
    ∀ f st m s x, parseCore f st m s = some x →
      ∀ g, pboundFuel m s ≤ g → parseCore g st m s = some x := by
  intro f
  induction f with
  | zero => intro st m s x h; rw [parseCore_zero] at h; cases h
  | succ f ih =>
    intro st m s x h g hg
    have hg1 : ∃ g1, g = g1 + 1 := by
      cases m <;> (dsimp only [pboundFuel] at hg; exact ⟨g - 1, by omega⟩)
    obtain ⟨g1, rfl⟩ := hg1
    cases m with
    | value =>
      dsimp only [pboundFuel] at hg
      rw [parseCore_value_eq] at h
      split at h
      · rename_i rest
        rw [parseCore_value_quote]
        exact h
      · rename_i rest
        rw [parseCore_value_lbrace]
        have hlen : (rest.dropWhile jsonWs).length ≤ rest.length :=
          (List.dropWhile_sublist _).length_le
        split at h
        · exact h
        · rename_i hne
          apply ih _ _ _ _ h
          dsimp only [pboundFuel]
          simp only [List.length_cons] at hg
          omega
      · rename_i rest
        rw [parseCore_value_lbrack]
        have hlen : (rest.dropWhile jsonWs).length ≤ rest.length :=
          (List.dropWhile_sublist _).length_le
        split at h
        · exact h
        · rename_i hne
          apply ih _ _ _ _ h
          dsimp only [pboundFuel]
          simp only [List.length_cons] at hg
          omega
      · rename_i rest
        rw [parseCore_value_null]
        exact h
      · rename_i rest
        rw [parseCore_value_true]
        exact h
      · rename_i rest
        rw [parseCore_value_false]
        exact h
      · rename_i hn1 hn2 hn3 hn4 hn5 hn6
        rw [parseCore_value_eq]
        split
        · rename_i rest2
          exact (hn1 rest2 rfl).elim
        · rename_i rest2
          exact (hn2 rest2 rfl).elim
        · rename_i rest2
          exact (hn3 rest2 rfl).elim
        · rename_i rest2
          exact (hn4 rest2 rfl).elim
        · rename_i rest2
          exact (hn5 rest2 rfl).elim
        · rename_i rest2
          exact (hn6 rest2 rfl).elim
        · exact h
    | items acc =>
      dsimp only [pboundFuel] at hg
      rw [parseCore_items_eq] at h
      rw [parseCore_items_eq]
      cases hv : parseCore f st PMode.value s with
      | none => rw [hv] at h; cases h
      | some p =>
        obtain ⟨v1, R1⟩ := p
        rw [hv] at h
        dsimp only at h
        have hR1 : R1.length < s.length := parseCore_rest_lt hv
        have hvg : parseCore g1 st PMode.value s = some (v1, R1) := by
          apply ih _ _ _ _ hv
          dsimp only [pboundFuel]
          omega
        rw [hvg]
        dsimp only
        have hRd : (R1.dropWhile jsonWs).length ≤ R1.length :=
          (List.dropWhile_sublist _).length_le
        split at h
        · rename_i r2 heq
          have hRd2 : r2.length + 1 ≤ R1.length := by
            rw [heq] at hRd
            simpa using hRd
          have hr2 : (r2.dropWhile jsonWs).length ≤ r2.length :=
            (List.dropWhile_sublist _).length_le
          apply ih _ _ _ _ h
          dsimp only [pboundFuel]
          omega
        · exact h
        · cases h
    | members acc =>
      dsimp only [pboundFuel] at hg
      rw [parseCore_members_eq] at h
      split at h
      · rename_i rest
        simp only [List.length_cons] at hg
        split at h
        · cases h
        · rename_i k r1 heqSB
          obtain ⟨cS, hcS, hlastS, -⟩ := parseStringBody_struct st rest k r1 heqSB
          have hcS1 : 1 ≤ cS.length :=
            List.length_pos.mpr (ne_nil_of_getLast?_some hlastS)
          have hr1 : r1.length + 1 ≤ rest.length := by
            rw [hcS]
            simp
            omega
          rw [parseCore_members_eq]
          split
          · rename_i rest2 heq2
            injection heq2 with heq2a heq2b
            subst heq2b
            rw [heqSB]
            dsimp only
            have hr1d : (r1.dropWhile jsonWs).length ≤ r1.length :=
              (List.dropWhile_sublist _).length_le
            split at h
            · rename_i r2 heqC
              have hr2 : r2.length + 1 ≤ r1.length := by
                rw [heqC] at hr1d
                simpa using hr1d
              have hr2d : (r2.dropWhile jsonWs).length ≤ r2.length :=
                (List.dropWhile_sublist _).length_le
              split at h
              · cases h
              · rename_i v1 r3 heqV
                have hvg : parseCore g1 st PMode.value (r2.dropWhile jsonWs) =
                    some (v1, r3) := by
                  apply ih _ _ _ _ heqV
                  dsimp only [pboundFuel]
                  omega
                rw [hvg]
                dsimp only
                have hr3 : r3.length < (r2.dropWhile jsonWs).length :=
                  parseCore_rest_lt heqV
                have hr3d : (r3.dropWhile jsonWs).length ≤ r3.length :=
                  (List.dropWhile_sublist _).length_le
                split at h
                · exact h
                · rename_i r4 heqE
                  have hr4 : r4.length + 1 ≤ r3.length := by
                    rw [heqE] at hr3d
                    simpa using hr3d
                  have hr4d : (r4.dropWhile jsonWs).length ≤ r4.length :=
                    (List.dropWhile_sublist _).length_le
                  apply ih _ _ _ _ h
                  dsimp only [pboundFuel]
                  omega
                · cases h
            · cases h
          · rename_i hne1
            exact (hne1 rest rfl).elim
      · cases h

/-- Dropping while over an all-satisfying prefix skips it entirely. -/
theorem dropWhile_all_append {p : Char → Bool} {a : List Char}
    (ha : ∀ x ∈ a, p x = true) (y : List Char) :
    (a ++ y).dropWhile p = y.dropWhile p := by
  rw [List.dropWhile_append, List.dropWhile_eq_nil_iff.mpr ha]
  simp

/-- `pyStrip` of whitespace ++ core ++ whitespace is the core, when the
core neither starts nor ends in whitespace. -/
theorem pyStrip_mid {a b c : List Char} {hd ch : Char} {t : List Char}
    (ha : ∀ x ∈ a, pyWs x = true) (hb : ∀ x ∈ b, pyWs x = true)
    (hc : c = hd :: t) (hhd : pyWs hd = false)
    (hl : c.getLast? = some ch) (hch : pyWs ch = false) :
    pyStrip (a ++ c ++ b) = c := by
  unfold pyStrip
  rw [List.append_assoc, dropWhile_all_append ha]
  rw [hc, List.cons_append, dropWhile_cons_false hhd, ← List.cons_append, ← hc]
  rw [List.reverse_append]
  rw [dropWhile_all_append (fun x hx => hb x (List.mem_reverse.mp hx))]
  have hcr : c.reverse.head? = some ch := by rw [List.head?_reverse, hl]
  obtain ⟨ys, hys⟩ := List.head?_eq_some_iff.mp hcr
  rw [hys, dropWhile_cons_false hch, ← hys, List.reverse_reverse]

/-- The fence marker is no prefix of a text that does not start with a
backtick. -/
theorem fence_not_prefixOf_cons {hd : Char} {t : List Char} (h : hd ≠ '`') :
    fenceChars.isPrefixOf (hd :: t) = false := by
  simp [fenceChars, List.isPrefixOf]
  intro h1
  exact absurd h1.symm h

/-- C3: round-trip — any string that is well-formed JSON denoting an
array or an object (in particular it carries no surrounding code
fence) is returned by normalization exactly as the value it denotes. -/
theorem claim_C3 (text : List Char) (v : Json)
    (h : jsonLoads true text = Except.ok v)
    (hv : (∃ l, v = Json.arr l) ∨ (∃ l, v = Json.obj l)) :
    normalizeResp text = Except.ok v := by
  unfold jsonLoads at h
  cases hp : parseCore (jsonFuel text) true PMode.value (text.dropWhile jsonWs) with
  | none => rw [hp] at h; cases h
  | some p =>
    obtain ⟨v0, rT⟩ := p
    rw [hp] at h
    dsimp only at h
    split at h
    · rename_i hrT
      injection h with h0
      subst h0
      have hzT : ∀ x ∈ rT, jsonWs x = true := List.dropWhile_eq_nil_iff.mp hrT
      obtain ⟨c, ch, hd1, hlast, hchws⟩ := parseCore_struct _ _ _ _ _ _ hp
      have hpc : parseCore (jsonFuel text) true PMode.value c = some (v0, []) := by
        apply parseCore_trunc hzT
        rw [List.nil_append, ← hd1]
        exact hp
      obtain ⟨hd, t, hchd, hhdpy, hhdbt, hhdws⟩ := parseCore_value_head hpc
      have htw : text = (text.takeWhile jsonWs) ++ c ++ rT := by
        rw [List.append_assoc, ← hd1, List.takeWhile_append_dropWhile]
      have hstrip : pyStrip text = c := by
        conv_lhs => rw [htw]
        exact pyStrip_mid
          (fun x hx => jsonWs_pyWs (List.mem_takeWhile_imp hx))
          (fun x hx => jsonWs_pyWs (hzT x hx))
          hchd hhdpy hlast hchws
      have hfence : ¬ fenceChars.isPrefixOf (pyStrip text) = true := by
        rw [hstrip, hchd, fence_not_prefixOf_cons hhdbt]
        simp
      have hscf : strip_code_fence text = c := by
        rw [strip_code_fence_no_fence hfence, hstrip]
      have hcdw : c.dropWhile jsonWs = c := by
        rw [hchd]
        exact dropWhile_cons_false hhdws
      have hload : jsonLoads true c = Except.ok v0 := by
        unfold jsonLoads
        rw [hcdw, parseCore_fuel _ _ _ _ _ hpc (jsonFuel c)
          (by dsimp only [pboundFuel, jsonFuel]; omega)]
        rfl
      unfold normalizeResp
      dsimp only
      rw [hscf, hload]
      rcases hv with ⟨l, hvl⟩ | ⟨l, hvl⟩ <;> subst hvl <;> rfl
    · cases h

/-- Witness for C3 at `"[1,2]"`. -/
theorem claim_C3_witness :
    jsonLoads true "[1,2]".data = Except.ok (Json.arr [Json.num ['1'], Json.num ['2']])
    ∧ normalizeResp "[1,2]".data =
      Except.ok (Json.arr [Json.num ['1'], Json.num ['2']]) :=
  ⟨rfl, claim_C3 "[1,2]".data _ rfl (Or.inl ⟨_, rfl⟩)⟩
